import Mathlib

/-!
# A proof-of-work hash chain (Go package `blockchain`)

Shallow embedding of `blockchain.go` and the properties claimed of it.

Modelling conventions

* A Go `string` is an immutable byte sequence: `GoString = List UInt8`.
  The conversions `string(b)` and `[]byte(s)` copy the bytes.
* A Go slice is either `nil` or a (possibly empty) sequence: `Slice α = Option (List α)`,
  with `none` for `nil`.  `len`, `range`, indexing and `append` treat `nil` as empty;
  `reflect.DeepEqual` does not.
* The first part of the package (`Block`, `Blockchain` and their functions) describes each
  call on the contents of the slices.  For `[]byte` and `[]Block` nothing more is to be
  said: no byte of a hash is ever written in place, and no second slice of a chain lies
  over its array of blocks.  A `[]Transaction` is written in place, by `append` into spare
  capacity and by the status assignment of `Validation`, and two such slices may share a
  backing array.  The part *Shared storage* (`Heap`, `TxSlice`, `Mem.AddTransaction`,
  `Mem.AddTransactionToBlock`, `Mem.Validation`) models these three calls on memory; what
  they leave unchanged is settled there.  `Mem.AddTransaction_view`,
  `Mem.AddTransactionToBlock_view` and `Mem.Validation_view` show that on chains whose
  transaction slices share no cell they do to the contents what the first part says.
* Go `int` is the 64-bit signed integer; `Nonce++` wraps around.
* A call either returns or panics (`Outcome`).  The unbounded loop of `MineBlock`
  is run with a step budget; `none` means the budget ran out with the loop still running.
* The standard library (`crypto/sha256`, `encoding/hex`, `strconv.Itoa`, `strings.Repeat`,
  `time.Time.Format`, `reflect.DeepEqual`) is modelled executably after its documented
  behaviour, so every definition below can be evaluated on concrete inputs.
-/

namespace blockchain

/-! ## Go values -/

/-- Go `string`: a sequence of bytes. -/
abbrev GoString := List UInt8

/-- Go slice: `none` is the nil slice, `some xs` a non-nil slice with elements `xs`. -/
abbrev Slice (α : Type) := Option (List α)

/-- Elements of a slice; the nil slice has none. -/
def Slice.elems {α : Type} (s : Slice α) : List α := s.getD []

/-- Go `len(s)`. -/
def Slice.len {α : Type} (s : Slice α) : Nat := s.elems.length

/-- Go `append(s, x)`, as to the contents of the result: always a non-nil slice, holding
the elements of `s` and then `x`.  Where the element is stored (in place or in a new
array), and so what other slices see of it, is modelled by `appendTx`. -/
def Slice.append {α : Type} (s : Slice α) (x : α) : Slice α := some (s.elems ++ [x])

/-- Go `string(b)` for `b []byte`. -/
def Slice.toGoString (b : Slice UInt8) : GoString := b.elems

/-- Go `[]byte(s)`: a fresh non-nil slice holding the bytes of `s`. -/
def bytesOf (s : GoString) : Slice UInt8 := some s

/-- Bytes of a source-text literal (UTF-8). -/
def lit (s : String) : GoString := s.data.flatMap String.utf8EncodeChar

/-- Result of a call: it returns a value, or it panics. -/
inductive Outcome (α : Type) where
  | returned (val : α)
  | panicked (msg : String)
deriving DecidableEq

/-- Go `error`: `none` is `nil`, `some msg` is `errors.New(msg)`. -/
abbrev GoError := Option String

/-- Two-complement wrap-around of a 64-bit signed `int`. -/
def wrapInt64 (x : Int) : Int := (x + 2 ^ 63) % 2 ^ 64 - 2 ^ 63

/-! ## Standard library -/

/-- Decimal digits of a natural number, most significant first. -/
def decimal (n : Nat) : GoString := (Nat.toDigits 10 n).map Char.toUInt8

/-- Go `strconv.Itoa`: decimal text, with a leading minus sign for negative numbers. -/
def Itoa (i : Int) : GoString :=
  if i < 0 then lit "-" ++ decimal i.natAbs else decimal i.natAbs

/-- Go `strings.Repeat(s, count)`; a negative count panics.  (A count too large to
allocate makes the real call fail as well; here it returns, and `MineBlock` then panics
on its slice expression, so either way the call does not return.) -/
def Repeat (s : GoString) (count : Int) : Outcome GoString :=
  if count < 0 then .panicked "strings: negative Repeat count"
  else .returned (List.replicate count.toNat s).flatten

/-- Go `reflect.DeepEqual` on two `[]byte`: both nil, or both non-nil with equal bytes. -/
def DeepEqual (a b : Slice UInt8) : Bool :=
  match a, b with
  | none, none => true
  | some x, some y => decide (x = y)
  | _, _ => false

/-- Go `s[:n]` on a string; panics when `n` is outside `0 .. len(s)`. -/
def slicePrefix (s : GoString) (n : Int) : Outcome GoString :=
  if n < 0 ∨ (s.length : Int) < n then .panicked "runtime error: slice bounds out of range"
  else .returned (s.take n.toNat)

/-- Calendar reading of a `time.Time` in its own location. -/
structure Time where
  year : Int
  month : Nat
  day : Nat
  hour : Nat
  minute : Nat
  second : Nat
  nanosecond : Nat
deriving DecidableEq

/-- Integer in decimal, zero-padded on the left to `width` digits (sign in front),
as the time formatter prints its numeric fields. -/
def appendInt (x : Int) (width : Nat) : GoString :=
  let ds := decimal x.natAbs
  let padded := List.replicate (width - ds.length) (48 : UInt8) ++ ds
  if x < 0 then lit "-" ++ padded else padded

/-- Go `t.Format("2006-01-02 15:04:05")`: year, month, day, hour, minute, second. -/
def Time.Format (t : Time) : GoString :=
  appendInt t.year 4 ++ lit "-" ++ appendInt t.month 2 ++ lit "-" ++ appendInt t.day 2 ++
    lit " " ++ appendInt t.hour 2 ++ lit ":" ++ appendInt t.minute 2 ++ lit ":" ++
    appendInt t.second 2

/-! ### SHA-256 (FIPS 180-4), on 32-bit words held as natural numbers -/

namespace Sha256

/-- Integer `k`-th root by binary search on the low `bits` bits above `r`:
the largest `x` of the form `r + (bits below 2^bits)` with `x ^ k ≤ n`. -/
def iroot (k n : Nat) : Nat → Nat → Nat
  | 0, r => r
  | bits + 1, r => if (r + 2 ^ bits) ^ k ≤ n then iroot k n bits (r + 2 ^ bits) else iroot k n bits r

/-- The first 64 primes. -/
def primes : List Nat := (List.range 312).filter fun p => decide (2 ≤ p) &&
  (List.range p).all fun d => decide (d < 2) || decide (p % d ≠ 0)

/-- Round constants: the first 32 bits of the fractional parts of the cube roots of the
first 64 primes (see `K_eq_cube_roots`). -/
def K : List Nat := [
  1116352408, 1899447441, 3049323471, 3921009573, 961987163, 1508970993,
  2453635748, 2870763221, 3624381080, 310598401, 607225278, 1426881987,
  1925078388, 2162078206, 2614888103, 3248222580, 3835390401, 4022224774,
  264347078, 604807628, 770255983, 1249150122, 1555081692, 1996064986,
  2554220882, 2821834349, 2952996808, 3210313671, 3336571891, 3584528711,
  113926993, 338241895, 666307205, 773529912, 1294757372, 1396182291,
  1695183700, 1986661051, 2177026350, 2456956037, 2730485921, 2820302411,
  3259730800, 3345764771, 3516065817, 3600352804, 4094571909, 275423344,
  430227734, 506948616, 659060556, 883997877, 958139571, 1322822218,
  1537002063, 1747873779, 1955562222, 2024104815, 2227730452, 2361852424,
  2428436474, 2756734187, 3204031479, 3329325298]

/-- Addition modulo 2^32. -/
def add32 (a b : Nat) : Nat := (a + b) % 2 ^ 32

/-- Rotate a 32-bit word right by `n` bits. -/
def rotr (x n : Nat) : Nat := ((x >>> n) ||| (x <<< (32 - n))) % 2 ^ 32

/-- Bitwise complement of a 32-bit word. -/
def not32 (x : Nat) : Nat := x ^^^ 0xffffffff

/-- The choice function Ch. -/
def ch (x y z : Nat) : Nat := (x &&& y) ^^^ (not32 x &&& z)

/-- The majority function Maj. -/
def maj (x y z : Nat) : Nat := (x &&& y) ^^^ (x &&& z) ^^^ (y &&& z)

/-- Upper-case sigma 0. -/
def bsig0 (x : Nat) : Nat := rotr x 2 ^^^ rotr x 13 ^^^ rotr x 22

/-- Upper-case sigma 1. -/
def bsig1 (x : Nat) : Nat := rotr x 6 ^^^ rotr x 11 ^^^ rotr x 25

/-- Lower-case sigma 0. -/
def ssig0 (x : Nat) : Nat := rotr x 7 ^^^ rotr x 18 ^^^ (x >>> 3)

/-- Lower-case sigma 1. -/
def ssig1 (x : Nat) : Nat := rotr x 17 ^^^ rotr x 19 ^^^ (x >>> 10)

/-- Padding: the byte 0x80, zero bytes up to 56 modulo 64, then the bit length
as eight big-endian bytes. -/
def pad (msg : List Nat) : List Nat :=
  let l := msg.length
  let z := (55 + 64 - l % 64) % 64
  let bits := 8 * l
  msg ++ [0x80] ++ List.replicate z 0 ++
    (List.range 8).map (fun i => (bits >>> (8 * (7 - i))) % 256)

/-- The first `n` big-endian 32-bit words of a byte sequence. -/
def words : Nat → List Nat → List Nat
  | 0, _ => []
  | n + 1, b0 :: b1 :: b2 :: b3 :: rest =>
      (b0 * 2 ^ 24 + b1 * 2 ^ 16 + b2 * 2 ^ 8 + b3) :: words n rest
  | _ + 1, _ => []

/-- Extend the message schedule by `n` words; the schedule is kept newest first,
so position 1 is w[t-2], 6 is w[t-7], 14 is w[t-15] and 15 is w[t-16]. -/
def extend : Nat → List Nat → List Nat
  | 0, rev => rev
  | n + 1, rev =>
      let w := add32 (add32 (ssig1 (rev.getD 1 0)) (rev.getD 6 0))
                 (add32 (ssig0 (rev.getD 14 0)) (rev.getD 15 0))
      extend n (w :: rev)

/-- The eight working variables. -/
structure St where
  a : Nat
  b : Nat
  c : Nat
  d : Nat
  e : Nat
  f : Nat
  g : Nat
  h : Nat
deriving DecidableEq

/-- One round of the compression function. -/
def round (s : St) (k w : Nat) : St :=
  let t1 := add32 (add32 (add32 s.h (bsig1 s.e)) (add32 (ch s.e s.f s.g) k)) w
  let t2 := add32 (bsig0 s.a) (maj s.a s.b s.c)
  ⟨add32 t1 t2, s.a, s.b, s.c, add32 s.d t1, s.e, s.f, s.g⟩

/-- All rounds, pairing constants with schedule words. -/
def rounds : St → List Nat → List Nat → St
  | s, k :: ks, w :: ws => rounds (round s k w) ks ws
  | s, _, _ => s

/-- Compression of one 64-byte block into the running hash value. -/
def compress (s : St) (block : List Nat) : St :=
  let w := (extend 48 (words 16 block).reverse).reverse
  let r := rounds s K w
  ⟨add32 s.a r.a, add32 s.b r.b, add32 s.c r.c, add32 s.d r.d,
   add32 s.e r.e, add32 s.f r.f, add32 s.g r.g, add32 s.h r.h⟩

/-- Fold `compress` over `n` consecutive 64-byte blocks. -/
def blocks : Nat → St → List Nat → St
  | 0, s, _ => s
  | n + 1, s, bs => blocks n (compress s (bs.take 64)) (bs.drop 64)

/-- Initial hash value: the first 32 bits of the fractional parts of the square roots of
the first 8 primes (see `init_eq_square_roots`). -/
def init : St :=
  ⟨1779033703, 3144134277, 1013904242, 2773480762,
   1359893119, 2600822924, 528734635, 1541459225⟩

/-- The four bytes of a 32-bit word, big-endian. -/
def wordBytes (w : Nat) : List UInt8 :=
  [UInt8.ofNat (w >>> 24), UInt8.ofNat (w >>> 16), UInt8.ofNat (w >>> 8), UInt8.ofNat w]

/-- The 32-byte digest of a message (Go: `h := sha256.New(); h.Write(msg); h.Sum(nil)`). -/
def sum (msg : List UInt8) : List UInt8 :=
  let p := pad (msg.map UInt8.toNat)
  let s := blocks (p.length / 64) init p
  wordBytes s.a ++ wordBytes s.b ++ wordBytes s.c ++ wordBytes s.d ++
  wordBytes s.e ++ wordBytes s.f ++ wordBytes s.g ++ wordBytes s.h

end Sha256

/-- The alphabet of `encoding/hex`. -/
def hextable : GoString := lit "0123456789abcdef"

/-- Go `hex.EncodeToString`: two lowercase hexadecimal characters per byte, high nibble first. -/
def EncodeToString (src : List UInt8) : GoString :=
  src.flatMap fun v => [hextable.getD (v.toNat / 16) 0, hextable.getD (v.toNat % 16) 0]

/-! ## The package -/

/-- A transfer request and its settlement status. -/
structure Transaction where
  Sender : GoString
  Recipient : GoString
  Amount : Int
  Status : GoString
deriving DecidableEq

/-- A block of the chain. -/
structure Block where
  Timestamp : Time
  Transactions : Slice Transaction
  PrevBlockHash : Slice UInt8
  Hash : Slice UInt8
  Nonce : Int
deriving DecidableEq

/-- The chain: its blocks, the pending pool and the mining difficulty. -/
structure Blockchain where
  Blocks : Slice Block
  TransactionPool : Slice Transaction
  difficulty : Int
deriving DecidableEq

/-- Source `CreateBlockchain`: a chain holding only the genesis block. -/
def CreateBlockchain (difficulty : Int) (currentTime : Time) : Blockchain :=
  let genesisBlock : Block :=
    { Timestamp := currentTime, Transactions := none, PrevBlockHash := none,
      Hash := bytesOf (lit "0"), Nonce := 0 }
  { Blocks := some [genesisBlock], TransactionPool := some [], difficulty := difficulty }

/-- Source `AddTransaction`: append to the pool. -/
def Blockchain.AddTransaction (bc : Blockchain) (transaction : Transaction) : Blockchain :=
  { bc with TransactionPool := bc.TransactionPool.append transaction }

/-- Assignment through a pointer to element `i` of a list: the element becomes `f` of itself. -/
def updateAt {α : Type} (f : α → α) : Nat → List α → List α
  | _, [] => []
  | 0, x :: xs => f x :: xs
  | i + 1, x :: xs => x :: updateAt f i xs

/-- Assignment through `&s[i]`; the slice keeps its identity (nil stays nil). -/
def Slice.updateAt {α : Type} (s : Slice α) (i : Nat) (f : α → α) : Slice α :=
  s.map (blockchain.updateAt f i)

/-- Source line 70: `latestBlock.Transactions = append(latestBlock.Transactions, transaction)`. -/
def Block.addTransaction (transaction : Transaction) (latestBlock : Block) : Block :=
  { latestBlock with Transactions := latestBlock.Transactions.append transaction }

/-- Source `AddTransactionToBlock`: append to the transactions of the latest block;
panics on a chain without blocks. -/
def Blockchain.AddTransactionToBlock (bc : Blockchain) (transaction : Transaction) :
    Outcome Blockchain :=
  if bc.Blocks.len > 1 then
    .returned { bc with
      Blocks := bc.Blocks.updateAt (bc.Blocks.len - 1) (Block.addTransaction transaction) }
  else if bc.Blocks.len = 1 then
    .returned { bc with Blocks := bc.Blocks.updateAt 0 (Block.addTransaction transaction) }
  else
    .panicked "Blockchain must contain at least one Block."

/-- Source `transactionsToString`: the loop `acc += Sender + Recipient + Itoa(Amount)`. -/
def Block.transactionsToString (block : Block) : GoString :=
  block.Transactions.elems.foldl
    (fun transactionStrList tx =>
      transactionStrList ++ (tx.Sender ++ tx.Recipient ++ Itoa tx.Amount)) []

/-- Source `calculateHash`: hexadecimal SHA-256 of the block record. -/
def Block.calculateHash (block : Block) : GoString :=
  let record := block.Timestamp.Format ++ block.transactionsToString ++
    block.PrevBlockHash.toGoString ++ Itoa block.Nonce
  let hashed := Sha256.sum record
  EncodeToString hashed

/-- The `for` loop of `MineBlock`, run for at most `fuel` iterations.
`none`: the budget ran out and the loop is still running. -/
def mineLoop (difficulty : Int) (target : GoString) : Nat → Block → Option (Outcome Block)
  | 0, _ => none
  | fuel + 1, block =>
    let hashStr := block.calculateHash
    match slicePrefix hashStr difficulty with
    | .panicked msg => some (.panicked msg)
    | .returned head =>
      if head = target then
        some (.returned { block with Hash := bytesOf hashStr })
      else
        mineLoop difficulty target fuel { block with Nonce := wrapInt64 (block.Nonce + 1) }

/-- Source `MineBlock`: search for a nonce whose hash starts with `difficulty` zeros. -/
def Block.MineBlock (fuel : Nat) (block : Block) (difficulty : Int) : Option (Outcome Block) :=
  match Repeat (lit "0") difficulty with
  | .panicked msg => some (.panicked msg)
  | .returned target => mineLoop difficulty target fuel block

/-- Go `s[i]` for an `int` index; panics outside `0 .. len(s)-1`. -/
def Slice.index {α : Type} (s : Slice α) (i : Int) : Outcome α :=
  if i < 0 then .panicked "runtime error: index out of range"
  else match s.elems[i.toNat]? with
    | some x => .returned x
    | none => .panicked "runtime error: index out of range"

/-- Source `AddBlock`: append an unmined block linked to the current tail.
`now` is the value of `time.Now()`. -/
def Blockchain.AddBlock (bc : Blockchain) (now : Time) : Outcome Blockchain :=
  match bc.Blocks.index ((bc.Blocks.len : Int) - 1) with
  | .panicked msg => .panicked msg
  | .returned latestBlock =>
    let newBlock : Block :=
      { Timestamp := now, Transactions := none, PrevBlockHash := latestBlock.Hash,
        Hash := some [], Nonce := 0 }
    .returned { bc with Blocks := bc.Blocks.append newBlock }

/-- Source lines 129-132, as to the contents of the block: every transaction of the block
gets the status `Success`.  The assignment goes through the backing array; what other
slices over the same cells see of it is modelled by `markSuccess`. -/
def Block.setSuccess (currentBlock : Block) : Block :=
  { currentBlock with
    Transactions := currentBlock.Transactions.map
      (List.map fun transaction => { transaction with Status := lit "Success" }) }

/-- Source line 125: the condition under which `Validation` rejects a block. -/
def invalid (previousBlock currentBlock : Block) : Bool :=
  currentBlock.Hash.toGoString != currentBlock.calculateHash ||
    !DeepEqual currentBlock.PrevBlockHash previousBlock.Hash

/-- The `for i := range bc.Blocks[1:]` loop of `Validation`, from index `i`, with
`n` iterations left, on the block list `blocks`. -/
def validationLoop : Nat → Nat → List Block → Outcome (List Block × GoError)
  | 0, _, blocks => .returned (blocks, none)
  | n + 1, i, blocks =>
    match blocks[i]?, blocks[i + 1]? with
    | some previousBlock, some currentBlock =>
      if invalid previousBlock currentBlock then
        .returned (blocks, some "Hash is not valid")
      else
        validationLoop n (i + 1) (updateAt Block.setSuccess (i + 1) blocks)
    | _, _ => .panicked "runtime error: index out of range"

/-- Source `Validation`: check every non-genesis block, marking the transactions of each
block that passes; returns the chain as left by the call together with the error.
Slicing `bc.Blocks[1:]` panics on a chain without blocks. -/
def Blockchain.Validation (bc : Blockchain) : Outcome (Blockchain × GoError) :=
  if bc.Blocks.len < 1 then .panicked "runtime error: slice bounds out of range [1:0]"
  else
    match validationLoop (bc.Blocks.len - 1) 0 bc.Blocks.elems with
    | .panicked msg => .panicked msg
    | .returned (blocks, err) => .returned ({ bc with Blocks := some blocks }, err)

/-- The loop of `Validation` by recursion on the blocks still to be checked, given the block
before them; the value is those blocks as the loop leaves them, and the error.
`validationLoop_eq` shows that the indexed loop computes exactly this. -/
def validateFrom (previousBlock : Block) : List Block → List Block × GoError
  | [] => ([], none)
  | currentBlock :: rest =>
    if invalid previousBlock currentBlock then
      (currentBlock :: rest, some "Hash is not valid")
    else
      (currentBlock.setSuccess :: (validateFrom currentBlock.setSuccess rest).1,
        (validateFrom currentBlock.setSuccess rest).2)

/-- Every non-genesis block (index `i + 1`) passes the two checks of the validation:
its stored hash is the hash of its content, and its `PrevBlockHash` is linked, in the
sense of `link`, to the stored hash of the block before it. -/
def ChecksPass (link : Slice UInt8 → Slice UInt8 → Prop) (blocks : List Block) : Prop :=
  ∀ (i : Nat) (previousBlock currentBlock : Block),
    blocks[i]? = some previousBlock → blocks[i + 1]? = some currentBlock →
      currentBlock.Hash.toGoString = currentBlock.calculateHash ∧
        link currentBlock.PrevBlockHash previousBlock.Hash

/-- Link test of the claim: the two byte sequences are equal byte for byte. -/
def bytewiseEqual (a b : Slice UInt8) : Prop := a.elems = b.elems

/-- Link test of the source: `reflect.DeepEqual`. -/
def deeplyEqual (a b : Slice UInt8) : Prop := DeepEqual a b = true

/-- The record as the specification words it: the formatted timestamp, then for each
transaction in list order sender, recipient and decimal amount, then the bytes of
`PrevBlockHash`, then the decimal nonce.  Compared with the source in `calculateHash_eq_spec`. -/
def specRecord (block : Block) : GoString :=
  block.Timestamp.Format ++
    (block.Transactions.elems.flatMap fun tx => tx.Sender ++ tx.Recipient ++ Itoa tx.Amount) ++
    block.PrevBlockHash.elems ++ Itoa block.Nonce

/-- A fixed time used in the examples: 2024-03-07 09:05:00. -/
def exampleTime : Time := ⟨2024, 3, 7, 9, 5, 0, 0⟩

/-- The genesis block of `CreateBlockchain 1 exampleTime`. -/
def exampleGenesis : Block :=
  { Timestamp := exampleTime, Transactions := none, PrevBlockHash := none,
    Hash := bytesOf (lit "0"), Nonce := 0 }

/-- The block `exampleGenesis` as mined at difficulty 1. -/
def exampleGenesisMined : Block :=
  { exampleGenesis with
    Hash := bytesOf (lit "0a96250015551cfe44f0cf89f8dec49637ec81e06352f8f71d33fb96a2778708"),
    Nonce := 12 }

/-- A block linked by a nil `PrevBlockHash`, storing the hash of its own content. -/
def exampleNilLinked : Block :=
  { Timestamp := exampleTime, Transactions := none, PrevBlockHash := none,
    Hash := bytesOf (lit "3f225cff7ab675b5138397e1f7b8cea6f6cc8cacce52a8d0754f143fff28fb8f"),
    Nonce := 0 }

/-- A two-block chain whose first block stores the empty, non-nil hash `[]byte{}` and whose
second block has a nil `PrevBlockHash`: the same (empty) bytes, but not deeply equal. -/
def exampleNilVersusEmpty : Blockchain :=
  { Blocks := some [{ exampleGenesis with Hash := some [] }, exampleNilLinked],
    TransactionPool := some [], difficulty := 0 }

/-- First transaction of the examples. -/
def exampleTx1 : Transaction :=
  { Sender := lit "Alice", Recipient := lit "Bob", Amount := 10, Status := lit "Pending" }

/-- Second transaction of the examples. -/
def exampleTx2 : Transaction :=
  { Sender := lit "Bob", Recipient := lit "Alice", Amount := 20, Status := lit "Pending" }

/-- A block holding the two example transactions, linked to `exampleGenesis` and mined
at difficulty 1. -/
def exampleBlock1 : Block :=
  { Timestamp := exampleTime, Transactions := some [exampleTx1, exampleTx2],
    PrevBlockHash := bytesOf (lit "0"),
    Hash := bytesOf (lit "0af651da393eff457af29010159aec2497f73fd131e9efe9edba3b9e6efb09ba"),
    Nonce := 12 }

/-- The chain of `exampleGenesis` and `exampleBlock1`. -/
def exampleChain : Blockchain :=
  { Blocks := some [exampleGenesis, exampleBlock1], TransactionPool := some [exampleTx1],
    difficulty := 1 }

/-- The block `exampleBlock1` with the first character of its stored hash altered. -/
def exampleCorrupted : Block :=
  { exampleBlock1 with
    Hash := bytesOf (lit "1af651da393eff457af29010159aec2497f73fd131e9efe9edba3b9e6efb09ba") }

/-- The chain `exampleChain` with its second block corrupted. -/
def exampleCorruptedChain : Blockchain :=
  { exampleChain with Blocks := some [exampleGenesis, exampleCorrupted] }

/-- The unmined block that `AddBlock` appends after `exampleBlock1`. -/
def exampleUnmined : Block :=
  { Timestamp := exampleTime, Transactions := none, PrevBlockHash := exampleBlock1.Hash,
    Hash := some [], Nonce := 0 }

/-- The chain `exampleChain` followed by an unmined block. -/
def exampleUnminedTail : Blockchain :=
  { exampleChain with Blocks := some [exampleGenesis, exampleBlock1, exampleUnmined] }

/-- A character of lowercase hexadecimal text: `0`-`9` or `a`-`f`. -/
def isLowerHex (c : UInt8) : Prop :=
  (Char.toNat '0' ≤ c.toNat ∧ c.toNat ≤ Char.toNat '9') ∨
    (Char.toNat 'a' ≤ c.toNat ∧ c.toNat ≤ Char.toNat 'f')

/-- The nonce after `k` executions of `block.Nonce++`, starting from `n`. -/
def nonceAfter : Nat → Int → Int
  | 0, n => n
  | k + 1, n => nonceAfter k (wrapInt64 (n + 1))

/-- The hash of the block's content with the nonce `n` in place of its own. -/
def hashAt (block : Block) (n : Int) : GoString :=
  Block.calculateHash { block with Nonce := n }

/-- The proof-of-work target: with nonce `n`, the hash of the block's content starts with
`difficulty` characters `'0'`. -/
def meetsTarget (block : Block) (difficulty : Int) (n : Int) : Prop :=
  (hashAt block n).take difficulty.toNat = List.replicate difficulty.toNat (Char.toUInt8 '0')

/-- The largest 64-bit `int`, 2^63 - 1. -/
def maxInt : Int := 9223372036854775807

/-- The block `exampleGenesis` with the largest `int` as its nonce. -/
def exampleMaxNonce : Block := { exampleGenesis with Nonce := maxInt }

/-- The block `exampleMaxNonce` as `MineBlock(1)` leaves it: the counter has wrapped. -/
def exampleMaxNonceMined : Block :=
  { exampleMaxNonce with
    Hash := bytesOf (lit "071bf8ad73d231b5043681af989e32b10ea99eecc5f9e1a01d011421c2216d07"),
    Nonce := -9223372036854775799 }

/-- The block `exampleBlock1`, not yet mined, with the largest `int` as its nonce. -/
def exampleFullMaxNonce : Block := { exampleBlock1 with Hash := some [], Nonce := maxInt }

/-- The block `exampleFullMaxNonce` as `MineBlock(1)` leaves it. -/
def exampleFullMaxNonceMined : Block :=
  { exampleFullMaxNonce with
    Hash := bytesOf (lit "06034b8c4d04a6692a46dfe45ae5540264432bad1f701914fd1dea4003e5f839"),
    Nonce := -9223372036854775798 }

/-- Link test of the post-validation invariant: the two slices are the same value. -/
def sameSlice (a b : Slice UInt8) : Prop := a = b

/-- A block whose only transaction is from `A` to `B1`, amount 0. -/
def exampleCollisionA : Block :=
  { exampleGenesis with
    Transactions := some [{ Sender := lit "A", Recipient := lit "B1", Amount := 0,
                            Status := lit "Pending" }] }

/-- A block whose only transaction is from `AB` to the empty name, amount 10. -/
def exampleCollisionB : Block :=
  { exampleGenesis with
    Transactions := some [{ Sender := lit "AB", Recipient := lit "", Amount := 10,
                            Status := lit "Pending" }] }

/-- The chain `exampleChain` as a successful validation leaves it. -/
def exampleChainMarked : Blockchain :=
  { exampleChain with Blocks := some [exampleGenesis, exampleBlock1.setSuccess] }

/-- The block that `AddBlock` builds at time `now` after the tail `latestBlock`
(source lines 111-116). -/
def newBlock (now : Time) (latestBlock : Block) : Block :=
  { Timestamp := now, Transactions := none, PrevBlockHash := latestBlock.Hash,
    Hash := some [], Nonce := 0 }

/-- One call on a chain that returns, taking the chain from its state before the call to
its state after: `AddTransaction`, `AddTransactionToBlock`, `AddBlock`, `MineBlock` on
the block at some index of the chain (through `&bc.Blocks[i]`), or `Validation`. -/
inductive Step : Blockchain → Blockchain → Prop where
  | addTransaction {bc : Blockchain} (tx : Transaction) : Step bc (bc.AddTransaction tx)
  | addTransactionToBlock {bc bc' : Blockchain} (tx : Transaction) :
      bc.AddTransactionToBlock tx = .returned bc' → Step bc bc'
  | addBlock {bc bc' : Blockchain} (now : Time) :
      bc.AddBlock now = .returned bc' → Step bc bc'
  | mineBlock {bc : Blockchain} (i fuel : Nat) (difficulty : Int) (block block' : Block) :
      bc.Blocks.elems[i]? = some block →
      block.MineBlock fuel difficulty = some (.returned block') →
      Step bc { bc with Blocks := bc.Blocks.updateAt i fun _ => block' }
  | validation {bc bc' : Blockchain} (err : GoError) :
      bc.Validation = .returned (bc', err) → Step bc bc'

/-- The chains reachable from `CreateBlockchain(d, t)` by a sequence of such calls. -/
def Reachable (d : Int) (t : Time) (bc : Blockchain) : Prop :=
  Relation.ReflTransGen Step (CreateBlockchain d t) bc

/-- The first block of the chain stands where the genesis block of time `t` was put: the
chain has a block at index 0, with the timestamp `t` and no previous hash. -/
def GenesisAtZero (t : Time) (bc : Blockchain) : Prop :=
  ∃ (g : Block) (rest : List Block),
    bc.Blocks = some (g :: rest) ∧ g.Timestamp = t ∧ g.PrevBlockHash = none

/-- The chain `CreateBlockchain 3 exampleTime` after `AddTransaction(exampleTx1)` and
then `AddBlock()` at time `exampleTime`. -/
def exampleReached : Blockchain :=
  { Blocks := some [exampleGenesis, newBlock exampleTime exampleGenesis],
    TransactionPool := some [exampleTx1], difficulty := 3 }

/-! ## Shared storage

The transactions of a chain live in backing arrays, and a `[]Transaction` is a window on
one of them.  Two windows may lie over the same cells: a write through one (`append` into
spare capacity, the status assignment of `Validation`) then shows through the other.
This part models the three calls that write transactions on that memory. -/

/-- The backing arrays of the `[]Transaction` slices, by number. -/
abbrev Heap := List (List Transaction)

/-- A non-nil `[]Transaction`: the cells `off`, ..., `off + len - 1` of the array number
`arr`, with capacity `cap` (room up to cell `off + cap - 1`). -/
structure TxSlice where
  arr : Nat
  off : Nat
  len : Nat
  cap : Nat
deriving DecidableEq

/-- The content of cell `i` of array `a`, when there is such a cell. -/
def Heap.cell (h : Heap) (a i : Nat) : Option Transaction := (h.getD a [])[i]?

/-- Assignment through a pointer to cell `i` of array `a`. -/
def Heap.write (h : Heap) (a i : Nat) (f : Transaction → Transaction) : Heap :=
  updateAt (updateAt f i) a h

/-- The elements of a slice, read from memory. -/
def TxSlice.read (s : TxSlice) (h : Heap) : List Transaction :=
  ((h.getD s.arr []).drop s.off).take s.len

/-- The content of a possibly nil slice: nil stays nil. -/
def readTx (h : Heap) (s : Option TxSlice) : Slice Transaction := s.map fun s => s.read h

/-- The zero value of `Transaction`, which fills the spare cells of a new array. -/
def Transaction.zero : Transaction := { Sender := [], Recipient := [], Amount := 0, Status := [] }

/-- Go `append(s, x)` on memory.  With spare capacity the element is written into the
cell after the last one, in place; otherwise (and for the nil slice) the elements and `x`
go to a new array.  `spare` is the number of extra cells the runtime gives the new array
(its choice; any number is allowed).  The value is the memory and the resulting slice. -/
def appendTx (spare : Nat) (h : Heap) (s : Option TxSlice) (x : Transaction) : Heap × TxSlice :=
  match s with
  | some s =>
    if s.len < s.cap then
      (h.write s.arr (s.off + s.len) fun _ => x, { s with len := s.len + 1 })
    else
      (h ++ [s.read h ++ x :: List.replicate spare Transaction.zero],
        { arr := h.length, off := 0, len := s.len + 1, cap := s.len + 1 + spare })
  | none =>
    (h ++ [x :: List.replicate spare Transaction.zero],
      { arr := h.length, off := 0, len := 1, cap := 1 + spare })

/-- A slice lies within its array: at most `cap` elements, and `cap` cells from `off` on. -/
def TxSlice.inBounds (s : TxSlice) (h : Heap) : Bool :=
  decide (s.len ≤ s.cap) && decide (s.arr < h.length) &&
    decide (s.off + s.cap ≤ (h.getD s.arr []).length)

/-- Two slices share no cell, spare capacity included: they lie on different arrays or on
ranges of one array that do not meet. -/
def TxSlice.disjoint (s t : TxSlice) : Bool :=
  s.arr != t.arr || decide (s.off + s.cap ≤ t.off) || decide (t.off + t.cap ≤ s.off)

/-- The bounds of a possibly nil slice; nil has none to keep. -/
def inBoundsOpt (h : Heap) : Option TxSlice → Bool
  | some s => s.inBounds h
  | none => true

/-- Two possibly nil slices share no cell. -/
def disjointOpt : Option TxSlice → Option TxSlice → Bool
  | some s, some t => s.disjoint t
  | _, _ => true

/-- Source lines 129-132 on memory: the loop `for i := 0; i < len; i++` that assigns
`"Success"` through `&currentBlock.Transactions[i]`, with `n` iterations left at index `i`. -/
def markSuccess (s : TxSlice) : Nat → Nat → Heap → Heap
  | 0, _, h => h
  | n + 1, i, h =>
    markSuccess s n (i + 1)
      (h.write s.arr (s.off + i) fun transaction => { transaction with Status := lit "Success" })

/-- A block in memory: `Transactions` is a window on a backing array. -/
structure MemBlock where
  Timestamp : Time
  Transactions : Option TxSlice
  PrevBlockHash : Slice UInt8
  Hash : Slice UInt8
  Nonce : Int
deriving DecidableEq

/-- A chain in memory.  (No other slice of the chain lies over the array of `Blocks`, and
the bytes of a hash are never written in place, so those stay values.) -/
structure MemChain where
  Blocks : Slice MemBlock
  TransactionPool : Option TxSlice
  difficulty : Int
deriving DecidableEq

/-- The block as a reader sees it: its transactions read from memory. -/
def MemBlock.view (h : Heap) (b : MemBlock) : Block :=
  { Timestamp := b.Timestamp, Transactions := readTx h b.Transactions,
    PrevBlockHash := b.PrevBlockHash, Hash := b.Hash, Nonce := b.Nonce }

/-- The chain as a reader sees it. -/
def MemChain.view (h : Heap) (bc : MemChain) : Blockchain :=
  { Blocks := bc.Blocks.map (List.map (MemBlock.view h)),
    TransactionPool := readTx h bc.TransactionPool, difficulty := bc.difficulty }

/-- Source `AddTransaction` on memory: `bc.TransactionPool = append(bc.TransactionPool, tx)`. -/
def Mem.AddTransaction (spare : Nat) (h : Heap) (bc : MemChain) (transaction : Transaction) :
    Heap × MemChain :=
  ((appendTx spare h bc.TransactionPool transaction).1,
    { bc with TransactionPool := some (appendTx spare h bc.TransactionPool transaction).2 })

/-- Source line 70 on memory, for `latestBlock = &bc.Blocks[i]`:
`latestBlock.Transactions = append(latestBlock.Transactions, transaction)`.
(Both call sites pass an index of `bc.Blocks`; for any other `i` nothing is done.) -/
def Mem.appendToBlock (spare : Nat) (h : Heap) (bc : MemChain) (i : Nat)
    (transaction : Transaction) : Heap × MemChain :=
  match bc.Blocks.elems[i]? with
  | none => (h, bc)
  | some latestBlock =>
    ((appendTx spare h latestBlock.Transactions transaction).1,
      { bc with
        Blocks := bc.Blocks.updateAt i fun b =>
          { b with
            Transactions := some (appendTx spare h latestBlock.Transactions transaction).2 } })

/-- Source `AddTransactionToBlock` on memory. -/
def Mem.AddTransactionToBlock (spare : Nat) (h : Heap) (bc : MemChain)
    (transaction : Transaction) : Outcome (Heap × MemChain) :=
  if bc.Blocks.len > 1 then
    .returned (Mem.appendToBlock spare h bc (bc.Blocks.len - 1) transaction)
  else if bc.Blocks.len = 1 then
    .returned (Mem.appendToBlock spare h bc 0 transaction)
  else
    .panicked "Blockchain must contain at least one Block."

/-- Source lines 129-132 on memory, for the block `currentBlock`. -/
def Mem.setSuccess (h : Heap) (currentBlock : MemBlock) : Heap :=
  match currentBlock.Transactions with
  | none => h
  | some s => markSuccess s s.len 0 h

/-- The loop of `Validation` on memory; the blocks themselves are not assigned to, only the
cells of their transactions, so the value is the memory left and the error. -/
def Mem.validationLoop : Nat → Nat → Heap → List MemBlock → Outcome (Heap × GoError)
  | 0, _, h, _ => .returned (h, none)
  | n + 1, i, h, blocks =>
    match blocks[i]?, blocks[i + 1]? with
    | some previousBlock, some currentBlock =>
      if invalid (previousBlock.view h) (currentBlock.view h) then
        .returned (h, some "Hash is not valid")
      else
        Mem.validationLoop n (i + 1) (Mem.setSuccess h currentBlock) blocks
    | _, _ => .panicked "runtime error: index out of range"

/-- Source `Validation` on memory. -/
def Mem.Validation (h : Heap) (bc : MemChain) : Outcome (Heap × GoError) :=
  if bc.Blocks.len < 1 then .panicked "runtime error: slice bounds out of range [1:0]"
  else Mem.validationLoop (bc.Blocks.len - 1) 0 h bc.Blocks.elems

/-- Every transaction slice of the chain lies within its array. -/
def MemChain.WellFormed (h : Heap) (bc : MemChain) : Prop :=
  inBoundsOpt h bc.TransactionPool = true ∧
    ∀ b ∈ bc.Blocks.elems, inBoundsOpt h b.Transactions = true

/-- No two transaction slices of the chain (the pool and the `Transactions` of the blocks)
share a cell. -/
def MemChain.Separated (bc : MemChain) : Prop :=
  (bc.Blocks.elems.map fun b => b.Transactions).Pairwise (fun s t => disjointOpt s t = true) ∧
    ∀ b ∈ bc.Blocks.elems, disjointOpt bc.TransactionPool b.Transactions = true

/-- The outcome of a call with its returned value transformed by `f`. -/
def Outcome.map {α β : Type} (f : α → β) : Outcome α → Outcome β
  | .returned a => .returned (f a)
  | .panicked msg => .panicked msg

/-- The chain as a reader sees it after a call that left the memory and chain `r`. -/
def Mem.result (r : Heap × MemChain) : Blockchain := r.2.view r.1

/-- A third transaction for the examples. -/
def exampleTx3 : Transaction :=
  { Sender := lit "Carol", Recipient := lit "Dave", Amount := 30, Status := lit "Pending" }

/-- The block `exampleGenesis` in memory, holding the cells `0 .. len-1` of array 0. -/
def exampleMemGenesis (len : Nat) : MemBlock :=
  { Timestamp := exampleTime, Transactions := some { arr := 0, off := 0, len := len, cap := 2 },
    PrevBlockHash := none, Hash := bytesOf (lit "0"), Nonce := 0 }

/-- One array holding the two example transactions. -/
def exampleSharedHeap : Heap := [[exampleTx1, exampleTx2]]

/-- A well-formed chain with sharing: the only block holds both cells of array 0, and the
pool is the first cell of the same array, with capacity 2, as after
`arr := []Transaction{tx1, tx2}`, `Blocks[0].Transactions = arr`, `TransactionPool = arr[:1]`. -/
def examplePoolInBlock : MemChain :=
  { Blocks := some [exampleMemGenesis 2],
    TransactionPool := some { arr := 0, off := 0, len := 1, cap := 2 }, difficulty := 1 }

/-- Memory without sharing: array 0 for a block, array 1, with one spare cell, for the pool. -/
def exampleSeparateHeap : Heap := [[exampleTx1, exampleTx2], [exampleTx1, Transaction.zero]]

/-- The block `exampleBlock1` in memory, on array 0. -/
def exampleMemBlock1 : MemBlock :=
  { Timestamp := exampleTime, Transactions := some { arr := 0, off := 0, len := 2, cap := 2 },
    PrevBlockHash := bytesOf (lit "0"),
    Hash := bytesOf (lit "0af651da393eff457af29010159aec2497f73fd131e9efe9edba3b9e6efb09ba"),
    Nonce := 12 }

/-- The block `exampleGenesis` in memory, without transactions. -/
def exampleMemGenesisNil : MemBlock :=
  { Timestamp := exampleTime, Transactions := none, PrevBlockHash := none,
    Hash := bytesOf (lit "0"), Nonce := 0 }

/-- The chain `exampleChain` in memory, without sharing: read from `exampleSeparateHeap` it
is `exampleChain`. -/
def exampleMemChain : MemChain :=
  { Blocks := some [exampleMemGenesisNil, exampleMemBlock1],
    TransactionPool := some { arr := 1, off := 0, len := 1, cap := 2 }, difficulty := 1 }

/-- The chain of `CreateBlockchain 3 exampleTime` in memory: an empty, non-nil pool. -/
def exampleMemCreated : MemChain :=
  { Blocks := some [exampleMemGenesisNil],
    TransactionPool := some { arr := 0, off := 0, len := 0, cap := 0 }, difficulty := 3 }

theorem Sha256.K_eq_cube_roots :
    Sha256.K = Sha256.primes.map fun p => Sha256.iroot 3 (p * 2 ^ 96) 40 0 % 2 ^ 32 := by
  decide!

theorem Sha256.init_eq_square_roots :
    [Sha256.init.a, Sha256.init.b, Sha256.init.c, Sha256.init.d,
      Sha256.init.e, Sha256.init.f, Sha256.init.g, Sha256.init.h] =
    (Sha256.primes.take 8).map fun p => Sha256.iroot 2 (p * 2 ^ 64) 40 0 % 2 ^ 32 := by
  decide!

/-- The digest of the empty message, as published. -/
theorem Sha256.sum_empty :
    EncodeToString (Sha256.sum []) =
      lit "e3b0c44298fc1c149afbf4c8996fb92427ae41e4649b934ca495991b7852b855" := by
  decide!

/-- The digest of a message that needs two blocks (56 bytes), as published. -/
theorem Sha256.sum_two_blocks :
    EncodeToString
        (Sha256.sum (lit "abcdbcdecdefdefgefghfghighijhijkijkljklmklmnlmnomnopnopq")) =
      lit "248d6a61d20638b8e5c026930c3e6039a33ce45964ff2167f6ecedd419db06c1" := by
  decide!

/-- The text `strconv.Itoa` and the time layout produce on sample values. -/
theorem Itoa_Format_samples :
    Itoa 0 = lit "0" ∧ Itoa 10 = lit "10" ∧ Itoa (-120) = lit "-120" ∧
      Time.Format ⟨2024, 3, 7, 9, 5, 0, 123⟩ = lit "2024-03-07 09:05:00" ∧
      Time.Format ⟨12345, 12, 31, 23, 59, 59, 0⟩ = lit "12345-12-31 23:59:59" := by
  decide!

theorem flatten_replicate_singleton {α : Type} (n : Nat) (a : α) :
    (List.replicate n [a]).flatten = List.replicate n a := by
  induction n with
  | zero => rfl
  | succ n ih => simp [List.replicate_succ, ih]

theorem lit_zero : lit "0" = [Char.toUInt8 '0'] := by decide

theorem Repeat_zero_returned {difficulty : Int} {target : GoString}
    (h : Repeat (lit "0") difficulty = .returned target) :
    target = List.replicate difficulty.toNat (Char.toUInt8 '0') := by
  unfold Repeat at h
  split at h
  · cases h
  · injection h with h
    rw [← h, lit_zero, flatten_replicate_singleton]

theorem slicePrefix_returned {s head : GoString} {n : Int}
    (h : slicePrefix s n = .returned head) :
    head = s.take n.toNat ∧ 0 ≤ n ∧ n.toNat ≤ s.length := by
  unfold slicePrefix at h
  split at h
  · cases h
  · rename_i hn
    injection h with h
    refine ⟨h.symm, by omega, by omega⟩

/-! ### Hashing -/

/-- The hash reads neither the stored `Hash` nor any transaction `Status`. -/
theorem calculateHash_congr {b c : Block} (ht : b.Timestamp = c.Timestamp)
    (hx : b.transactionsToString = c.transactionsToString)
    (hp : b.PrevBlockHash = c.PrevBlockHash) (hn : b.Nonce = c.Nonce) :
    b.calculateHash = c.calculateHash := by
  simp only [Block.calculateHash, ht, hx, hp, hn]

/-! ### Mining -/

theorem mineLoop_returned {difficulty : Int} {target : GoString} :
    ∀ (fuel : Nat) (block block' : Block),
      mineLoop difficulty target fuel block = some (.returned block') →
      block'.Hash = bytesOf block'.calculateHash ∧
        block'.calculateHash.take difficulty.toNat = target ∧
        difficulty.toNat ≤ block'.calculateHash.length := by
  intro fuel
  induction fuel with
  | zero => intro block block' h; simp [mineLoop] at h
  | succ fuel ih =>
    intro block block' h
    simp only [mineLoop] at h
    split at h
    · simp at h
    · rename_i head hs
      obtain ⟨hhead, -, hlen⟩ := slicePrefix_returned hs
      split at h
      · rename_i heq
        simp only [Option.some.injEq, Outcome.returned.injEq] at h
        subst h
        exact ⟨rfl, by rw [← heq, hhead]; rfl, hlen⟩
      · exact ih _ _ h

/-- C1: whenever `MineBlock(difficulty)` returns, the stored hash is the hash recomputed
from the final block and its first `difficulty` characters are all `'0'`. -/
theorem MineBlock_returned_hash (fuel : Nat) (block block' : Block) (difficulty : Int)
    (h : block.MineBlock fuel difficulty = some (.returned block')) :
    block'.Hash = bytesOf block'.calculateHash ∧
      difficulty.toNat ≤ block'.Hash.toGoString.length ∧
      ∀ i : Nat, (i : Int) < difficulty → block'.Hash.toGoString[i]? = some (Char.toUInt8 '0') := by
  unfold Block.MineBlock at h
  split at h
  · simp at h
  · rename_i target ht
    obtain ⟨hh, htake, hlen⟩ := mineLoop_returned fuel block block' h
    have hs : block'.Hash.toGoString = block'.calculateHash := by rw [hh]; rfl
    refine ⟨hh, by rw [hs]; exact hlen, ?_⟩
    intro i hi
    have hi' : i < difficulty.toNat := by omega
    have key : (block'.calculateHash.take difficulty.toNat)[i]? = some (Char.toUInt8 '0') := by
      rw [htake, Repeat_zero_returned ht]
      simp [hi']
    rw [hs]
    simpa [List.getElem?_take, hi'] using key

/-- C1 at a concrete block: mining the example genesis block at difficulty 1 returns
after 13 iterations with nonce 12. -/
theorem MineBlock_returned_hash_witness :
    exampleGenesis.MineBlock 13 1 = some (.returned exampleGenesisMined) ∧
    (exampleGenesisMined.Hash = bytesOf exampleGenesisMined.calculateHash ∧
      (1 : Int).toNat ≤ exampleGenesisMined.Hash.toGoString.length ∧
      ∀ i : Nat, (i : Int) < 1 →
        exampleGenesisMined.Hash.toGoString[i]? = some (Char.toUInt8 '0')) :=
  ⟨by decide!, MineBlock_returned_hash 13 exampleGenesis exampleGenesisMined 1 (by decide!)⟩

/-! ### Validation -/

theorem updateAt_append {α : Type} (f : α → α) (pre xs : List α) (k : Nat) :
    updateAt f (pre.length + k) (pre ++ xs) = pre ++ updateAt f k xs := by
  induction pre with
  | nil => simp
  | cons p pre ih =>
    have : (p :: pre).length + k = (pre.length + k) + 1 := by simp; omega
    rw [this]
    simp [updateAt, ih]

/-- The indexed loop of `Validation`, started at the block after `pre`, computes
`validateFrom` on the blocks that follow. -/
theorem validationLoop_eq (rest : List Block) :
    ∀ (pre : List Block) (previousBlock : Block),
      validationLoop rest.length pre.length (pre ++ previousBlock :: rest) =
        .returned (pre ++ previousBlock :: (validateFrom previousBlock rest).1,
          (validateFrom previousBlock rest).2) := by
  induction rest with
  | nil => intro pre previousBlock; simp [validationLoop, validateFrom]
  | cons currentBlock rest ih =>
    intro pre previousBlock
    have h0 : (pre ++ previousBlock :: currentBlock :: rest)[pre.length]? = some previousBlock := by
      rw [List.getElem?_append_right (le_refl _)]
      simp
    have h1 : (pre ++ previousBlock :: currentBlock :: rest)[pre.length + 1]? =
        some currentBlock := by
      rw [List.getElem?_append_right (by omega)]
      simp
    simp only [List.length_cons, validationLoop, h0, h1, validateFrom]
    by_cases hv : invalid previousBlock currentBlock = true
    · simp [hv]
    · have hu : updateAt Block.setSuccess (pre.length + 1)
          (pre ++ previousBlock :: currentBlock :: rest) =
          (pre ++ [previousBlock]) ++ currentBlock.setSuccess :: rest := by
        rw [updateAt_append]
        simp [updateAt]
      have hl : pre.length + 1 = (pre ++ [previousBlock]).length := by simp
      simp only [hv, Bool.false_eq_true, if_false, hu]
      rw [hl, ih (pre ++ [previousBlock]) currentBlock.setSuccess]
      simp

/-- The checks read the previous block only through its stored hash, which marking leaves
as it is. -/
theorem validateFrom_setSuccess (previousBlock : Block) (rest : List Block) :
    validateFrom previousBlock.setSuccess rest = validateFrom previousBlock rest := by
  cases rest with
  | nil => rfl
  | cons currentBlock rest => rfl

theorem validateFrom_cons (previousBlock currentBlock : Block) (rest : List Block) :
    validateFrom previousBlock (currentBlock :: rest) =
      if invalid previousBlock currentBlock then
        (currentBlock :: rest, some "Hash is not valid")
      else
        (currentBlock.setSuccess :: (validateFrom currentBlock rest).1,
          (validateFrom currentBlock rest).2) := by
  rw [← validateFrom_setSuccess currentBlock rest]
  rfl

theorem invalid_eq_false_iff (previousBlock currentBlock : Block) :
    invalid previousBlock currentBlock = false ↔
      currentBlock.Hash.toGoString = currentBlock.calculateHash ∧
        deeplyEqual currentBlock.PrevBlockHash previousBlock.Hash := by
  simp [invalid, deeplyEqual]

theorem ChecksPass_single (link : Slice UInt8 → Slice UInt8 → Prop) (b : Block) :
    ChecksPass link [b] := by
  intro i p c _ hc
  simp at hc

theorem ChecksPass_cons (link : Slice UInt8 → Slice UInt8 → Prop) (p c : Block)
    (rest : List Block) :
    ChecksPass link (p :: c :: rest) ↔
      (c.Hash.toGoString = c.calculateHash ∧ link c.PrevBlockHash p.Hash) ∧
        ChecksPass link (c :: rest) := by
  constructor
  · intro h
    exact ⟨h 0 p c rfl (by simp), fun i x y hx hy => h (i + 1) x y (by simpa using hx) (by simpa using hy)⟩
  · rintro ⟨h0, h⟩ i x y hx hy
    cases i with
    | zero =>
      simp only [List.getElem?_cons_zero, Option.some.injEq, zero_add,
        List.getElem?_cons_succ] at hx hy
      subst hx hy
      exact h0
    | succ i => exact h i x y (by simpa using hx) (by simpa using hy)

/-- The loop reports no error exactly when every block passes its checks, and then it has
marked them all. -/
theorem validateFrom_none_iff (rest : List Block) :
    ∀ previousBlock : Block,
      ((validateFrom previousBlock rest).2 = none ↔
        ChecksPass deeplyEqual (previousBlock :: rest)) ∧
      ((validateFrom previousBlock rest).2 = none →
        (validateFrom previousBlock rest).1 = rest.map Block.setSuccess) := by
  induction rest with
  | nil =>
    intro p
    exact ⟨⟨fun _ => ChecksPass_single _ p, fun _ => rfl⟩, fun _ => rfl⟩
  | cons c rest ih =>
    intro p
    rw [validateFrom_cons, ChecksPass_cons, ← invalid_eq_false_iff]
    by_cases hv : invalid p c = true
    · simp [hv]
    · simp only [hv, Bool.false_eq_true, if_false, Bool.not_eq_true] at *
      refine ⟨by simp [hv, (ih c).1], fun h => ?_⟩
      simp [(ih c).2 h]

/-- What `Validation` computes on a chain with first block `g`. -/
theorem Validation_eq (bc : Blockchain) (g : Block) (rest : List Block)
    (hb : bc.Blocks.elems = g :: rest) :
    bc.Validation =
      .returned ({ bc with Blocks := some (g :: (validateFrom g rest).1) },
        (validateFrom g rest).2) := by
  have hl : bc.Blocks.len = rest.length + 1 := by simp [Slice.len, hb]
  have := validationLoop_eq rest [] g
  simp only [List.length_nil, List.nil_append] at this
  simp [Blockchain.Validation, hl, hb, this]

theorem Slice.elems_cons {α : Type} {s : Slice α} {x : α} {xs : List α}
    (h : s.elems = x :: xs) : s = some (x :: xs) := by
  cases s with
  | none => simp [Slice.elems] at h
  | some l => simp [Slice.elems] at h; rw [h]

theorem Slice.exists_cons_of_len {α : Type} {s : Slice α} (h : 1 ≤ s.len) :
    ∃ x xs, s.elems = x :: xs := by
  unfold Slice.len at h
  cases hs : s.elems with
  | nil => simp [hs] at h
  | cons x xs => exact ⟨x, xs, rfl⟩

/-- C2 (amended): on a chain with at least one block, `Validation` returns, and its error is
nil exactly when every non-genesis block stores the hash of its own content and has a
`PrevBlockHash` deeply equal (`reflect.DeepEqual`) to the stored hash of the block before. -/
theorem Validation_nil_iff_checks (bc : Blockchain) (h : 1 ≤ bc.Blocks.len) :
    ∃ (bc' : Blockchain) (err : GoError), bc.Validation = .returned (bc', err) ∧
      (err = none ↔ ChecksPass deeplyEqual bc.Blocks.elems) := by
  obtain ⟨g, rest, hb⟩ := Slice.exists_cons_of_len h
  exact ⟨_, _, Validation_eq bc g rest hb, by rw [hb]; exact (validateFrom_none_iff rest g).1⟩

/-- C2 (amended) on the example chain. -/
theorem Validation_nil_iff_checks_witness :
    1 ≤ exampleChain.Blocks.len ∧
    ∃ (bc' : Blockchain) (err : GoError), exampleChain.Validation = .returned (bc', err) ∧
      (err = none ↔ ChecksPass deeplyEqual exampleChain.Blocks.elems) :=
  ⟨by decide, Validation_nil_iff_checks exampleChain (by decide)⟩

/-- C2 as claimed fails: in this chain the only non-genesis block stores the hash of its
content and its `PrevBlockHash` has the same bytes (none) as the stored hash of the block
before, yet `Validation` returns the error, since a nil slice and an empty one are not
deeply equal. -/
theorem Validation_bytewise_counterexample :
    1 ≤ exampleNilVersusEmpty.Blocks.len ∧
    ChecksPass bytewiseEqual exampleNilVersusEmpty.Blocks.elems ∧
    exampleNilVersusEmpty.Validation =
      .returned (exampleNilVersusEmpty, some "Hash is not valid") := by
  refine ⟨by decide, ?_, by decide!⟩
  show ChecksPass bytewiseEqual [_, _]
  rw [ChecksPass_cons]
  exact ⟨⟨by decide!, rfl⟩, ChecksPass_single _ _⟩

theorem setSuccess_status (b : Block) :
    ∀ tx ∈ b.setSuccess.Transactions.elems, tx.Status = lit "Success" := by
  intro tx htx
  cases hT : b.Transactions with
  | none => simp [Block.setSuccess, Slice.elems, hT] at htx
  | some txs =>
    simp only [Block.setSuccess, Slice.elems, hT, Option.map_some', Option.getD_some,
      List.mem_map] at htx
    obtain ⟨t, -, rfl⟩ := htx
    rfl

/-- C5: `CreateBlockchain(d, t)` holds exactly one block, with the one-byte hash `"0"`,
timestamp `t`, nonce 0, no transactions and no previous hash, an empty pool and
difficulty `d`, whatever `d` is. -/
theorem CreateBlockchain_genesis (d : Int) (t : Time) :
    ∃ g : Block, (CreateBlockchain d t).Blocks = some [g] ∧
      g.Hash = some [Char.toUInt8 '0'] ∧ g.Timestamp = t ∧ g.Nonce = 0 ∧
      g.Transactions = none ∧ g.PrevBlockHash = none ∧
      (CreateBlockchain d t).TransactionPool = some [] ∧
      (CreateBlockchain d t).difficulty = d :=
  ⟨_, rfl, by simp [bytesOf, lit_zero], rfl, rfl, rfl, rfl, rfl, rfl⟩

theorem Slice.index_last {α : Type} (s : Slice α) (init : List α) (last : α)
    (h : s.elems = init ++ [last]) : s.index ((s.len : Int) - 1) = .returned last := by
  have hl : s.len = init.length + 1 := by simp [Slice.len, h]
  have hi : ((s.len : Int) - 1).toNat = init.length := by omega
  have hn : ¬ ((s.len : Int) - 1 < 0) := by omega
  simp [Slice.index, hn, hi, h]

theorem exists_init_last {α : Type} {s : Slice α} (h : 1 ≤ s.len) :
    ∃ (init : List α) (last : α), s.elems = init ++ [last] := by
  have hne : s.elems ≠ [] := by
    intro hc
    simp [Slice.len, hc] at h
  exact ⟨s.elems.dropLast, s.elems.getLast hne, (List.dropLast_append_getLast hne).symm⟩

/-- C6: on a chain with at least one block, `AddBlock` returns the chain with the same
blocks followed by one new block: nonce 0, no transactions, empty hash, and the tail's
stored hash (whatever it is) as `PrevBlockHash`; pool and difficulty are unchanged. -/
theorem AddBlock_appends (bc : Blockchain) (now : Time) (h : 1 ≤ bc.Blocks.len) :
    ∃ (init : List Block) (tail : Block), bc.Blocks.elems = init ++ [tail] ∧
      bc.AddBlock now = .returned { bc with
        Blocks := some (bc.Blocks.elems ++
          [{ Timestamp := now, Transactions := none, PrevBlockHash := tail.Hash,
             Hash := some [], Nonce := 0 }]) } := by
  obtain ⟨init, tail, hb⟩ := exists_init_last h
  refine ⟨init, tail, hb, ?_⟩
  simp [Blockchain.AddBlock, Slice.index_last bc.Blocks init tail hb, Slice.append]

/-- C6 on the example chain. -/
theorem AddBlock_appends_witness :
    1 ≤ exampleChain.Blocks.len ∧
    ∃ (init : List Block) (tail : Block), exampleChain.Blocks.elems = init ++ [tail] ∧
      exampleChain.AddBlock exampleTime = .returned { exampleChain with
        Blocks := some (exampleChain.Blocks.elems ++
          [{ Timestamp := exampleTime, Transactions := none, PrevBlockHash := tail.Hash,
             Hash := some [], Nonce := 0 }]) } :=
  ⟨by decide, AddBlock_appends exampleChain exampleTime (by decide)⟩

theorem updateAt_last {α : Type} (f : α → α) (init : List α) (last : α) :
    updateAt f init.length (init ++ [last]) = init ++ [f last] := by
  have := updateAt_append f init [last] 0
  simpa [updateAt] using this

/-- C9: `AddTransactionToBlock` panics exactly on the chains without blocks, and returns
an updated chain exactly on the chains with at least one block. -/
theorem AddTransactionToBlock_panics_iff (bc : Blockchain) (tx : Transaction) :
    ((∃ msg, bc.AddTransactionToBlock tx = .panicked msg) ↔ bc.Blocks.len = 0) ∧
    ((∃ bc', bc.AddTransactionToBlock tx = .returned bc') ↔ 1 ≤ bc.Blocks.len) := by
  unfold Blockchain.AddTransactionToBlock
  by_cases h1 : bc.Blocks.len > 1
  · simp only [if_pos h1]
    refine ⟨⟨?_, fun h => by omega⟩, ⟨fun _ => by omega, fun _ => ⟨_, rfl⟩⟩⟩
    rintro ⟨_, h⟩
    cases h
  · by_cases h2 : bc.Blocks.len = 1
    · simp only [if_neg h1, if_pos h2]
      refine ⟨⟨?_, fun h => by omega⟩, ⟨fun _ => by omega, fun _ => ⟨_, rfl⟩⟩⟩
      rintro ⟨_, h⟩
      cases h
    · simp only [if_neg h1, if_neg h2]
      refine ⟨⟨fun _ => by omega, fun _ => ⟨_, rfl⟩⟩, ⟨?_, fun h => by omega⟩⟩
      rintro ⟨_, h⟩
      cases h

/-! ### The hash record -/

theorem foldl_append_eq_flatMap {α β : Type} (f : α → List β) (xs : List α) (acc : List β) :
    xs.foldl (fun s x => s ++ f x) acc = acc ++ xs.flatMap f := by
  induction xs generalizing acc with
  | nil => simp
  | cons x xs ih => simp [ih]

theorem transactionsToString_eq (block : Block) :
    block.transactionsToString =
      block.Transactions.elems.flatMap fun tx => tx.Sender ++ tx.Recipient ++ Itoa tx.Amount := by
  simp [Block.transactionsToString, foldl_append_eq_flatMap]

/-- C10: `calculateHash()` is the hexadecimal SHA-256 of the record made of the formatted
timestamp, then sender, recipient and decimal amount of each transaction in list order,
then the bytes of `PrevBlockHash`, then the decimal nonce.  The stored `Hash` and the
statuses of the transactions have no influence on it.  (The function only returns the
text: the block is not part of its result.) -/
theorem calculateHash_eq_spec (block : Block) :
    block.calculateHash = EncodeToString (Sha256.sum (specRecord block)) ∧
    (∀ hash : Slice UInt8,
      Block.calculateHash { block with Hash := hash } = block.calculateHash) ∧
    (∀ status : Transaction → GoString,
      Block.calculateHash { block with
        Transactions := block.Transactions.map
          (List.map fun tx => { tx with Status := status tx }) } =
        block.calculateHash) := by
  refine ⟨?_, fun _ => rfl, fun status => ?_⟩
  · simp [Block.calculateHash, specRecord, transactionsToString_eq, Slice.toGoString]
  · have hx : Block.transactionsToString { block with
        Transactions := block.Transactions.map
          (List.map fun tx => { tx with Status := status tx }) } =
        block.transactionsToString := by
      rw [transactionsToString_eq, transactionsToString_eq]
      cases hT : block.Transactions with
      | none => simp [Slice.elems]
      | some txs => simp [Slice.elems, List.flatMap_map]
    exact calculateHash_congr (c := block) rfl hx rfl rfl

/-! ### Shape of the hash -/

theorem Sha256.sum_length (msg : List UInt8) : (Sha256.sum msg).length = 32 := by
  simp [Sha256.sum, Sha256.wordBytes]

theorem EncodeToString_length (src : List UInt8) :
    (EncodeToString src).length = 2 * src.length := by
  induction src with
  | nil => rfl
  | cons v src ih =>
    simp only [EncodeToString, List.flatMap_cons, List.length_append, List.length_cons,
      List.length_nil] at ih ⊢
    omega

theorem hextable_isLowerHex : ∀ i : Nat, i < 16 → isLowerHex (hextable.getD i 0) := by
  unfold isLowerHex
  decide

theorem EncodeToString_isLowerHex (src : List UInt8) :
    ∀ c ∈ EncodeToString src, isLowerHex c := by
  intro c hc
  simp only [EncodeToString, List.mem_flatMap, List.mem_cons, List.mem_singleton,
    List.not_mem_nil, or_false] at hc
  obtain ⟨v, -, hv⟩ := hc
  have hlt : v.toNat < 256 := v.val.isLt
  rcases hv with rfl | rfl
  · exact hextable_isLowerHex _ (by omega)
  · exact hextable_isLowerHex _ (by omega)

theorem calculateHash_length (block : Block) : block.calculateHash.length = 64 := by
  simp [Block.calculateHash, EncodeToString_length, Sha256.sum_length]

/-- C11: `calculateHash()` is always 64 characters of lowercase hexadecimal, and a block
returned by `MineBlock` stores exactly those 64 characters as its `Hash`. -/
theorem calculateHash_hex_and_stored (block : Block) :
    block.calculateHash.length = 64 ∧
    (∀ c ∈ block.calculateHash, isLowerHex c) ∧
    (∀ (fuel : Nat) (difficulty : Int) (block' : Block),
      block.MineBlock fuel difficulty = some (.returned block') →
        block'.Hash = some block'.calculateHash ∧ block'.Hash.len = 64) := by
  refine ⟨calculateHash_length block, EncodeToString_isLowerHex _, ?_⟩
  intro fuel difficulty block' h
  unfold Block.MineBlock at h
  split at h
  · simp at h
  · have hh := (mineLoop_returned fuel block block' h).1
    exact ⟨hh, by rw [hh]; exact calculateHash_length block'⟩

/-- C11 on the example genesis block, mined at difficulty 1. -/
theorem calculateHash_hex_and_stored_witness :
    exampleGenesis.MineBlock 13 1 = some (.returned exampleGenesisMined) ∧
    exampleGenesisMined.Hash = some exampleGenesisMined.calculateHash ∧
    exampleGenesisMined.Hash.len = 64 :=
  ⟨by decide!,
   (calculateHash_hex_and_stored exampleGenesis).2.2 13 1 exampleGenesisMined (by decide!)⟩

/-! ### Mining: first iteration -/

theorem Repeat_zero_nonneg {difficulty : Int} (h : 0 ≤ difficulty) :
    Repeat (lit "0") difficulty =
      .returned (List.replicate difficulty.toNat (Char.toUInt8 '0')) := by
  have hn : ¬ difficulty < 0 := by omega
  simp [Repeat, hn, lit_zero, flatten_replicate_singleton]

/-- C13: `MineBlock(0)` returns in its first iteration, with the nonce it was given and
the hash computed at that nonce. -/
theorem MineBlock_zero (block : Block) (fuel : Nat) :
    block.MineBlock (fuel + 1) 0 =
      some (.returned { block with Hash := bytesOf block.calculateHash }) := by
  have hn : ¬ ((block.calculateHash.length : Int) < 0) := by omega
  simp [Block.MineBlock, Repeat_zero_nonneg (le_refl 0), mineLoop, slicePrefix, hn]

/-- C17: with a difficulty above 64 the first iteration of `MineBlock` panics on the slice
`hashStr[:difficulty]`, before any assignment to `Hash` or `Nonce`; no step budget makes
the call return a block. -/
theorem MineBlock_above_64 (block : Block) (difficulty : Int) (h : 64 < difficulty) :
    (∀ fuel : Nat, block.MineBlock (fuel + 1) difficulty =
      some (.panicked "runtime error: slice bounds out of range")) ∧
    (∀ (fuel : Nat) (block' : Block),
      block.MineBlock fuel difficulty ≠ some (.returned block')) := by
  have hs : slicePrefix block.calculateHash difficulty =
      .panicked "runtime error: slice bounds out of range" := by
    have : ((block.calculateHash.length : Int) < difficulty) := by
      rw [calculateHash_length]; exact_mod_cast h
    simp [slicePrefix, this]
  have h1 : ∀ fuel : Nat, block.MineBlock (fuel + 1) difficulty =
      some (.panicked "runtime error: slice bounds out of range") := by
    intro fuel
    simp [Block.MineBlock, Repeat_zero_nonneg (show (0 : Int) ≤ difficulty by omega),
      mineLoop, hs]
  refine ⟨h1, fun fuel block' => ?_⟩
  cases fuel with
  | zero => simp [Block.MineBlock, Repeat_zero_nonneg (show (0 : Int) ≤ difficulty by omega),
      mineLoop]
  | succ fuel => rw [h1 fuel]; simp

/-- C17 at difficulty 65 on the example genesis block. -/
theorem MineBlock_above_64_witness :
    (64 : Int) < 65 ∧
    (∀ fuel : Nat, exampleGenesis.MineBlock (fuel + 1) 65 =
      some (.panicked "runtime error: slice bounds out of range")) ∧
    (∀ (fuel : Nat) (block' : Block),
      exampleGenesis.MineBlock fuel 65 ≠ some (.returned block')) :=
  ⟨by decide, MineBlock_above_64 exampleGenesis 65 (by decide)⟩

/-! ### Mining: the nonce search -/

theorem wrapInt64_of_range {x : Int} (h0 : -2 ^ 63 ≤ x) (h1 : x < 2 ^ 63) : wrapInt64 x = x := by
  unfold wrapInt64
  omega

/-- While the counter stays at or below the largest `int`, `k` increments add `k`. -/
theorem nonceAfter_of_range (k : Nat) :
    ∀ n : Int, -2 ^ 63 ≤ n → n + k < 2 ^ 63 → nonceAfter k n = n + k := by
  induction k with
  | zero => intro n _ _; simp [nonceAfter]
  | succ k ih =>
    intro n h0 h1
    have hw : wrapInt64 (n + 1) = n + 1 := wrapInt64_of_range (by omega) (by push_cast at h1; omega)
    rw [nonceAfter, hw, ih (n + 1) (by omega) (by push_cast at h1 ⊢; omega)]
    push_cast
    ring

theorem hashAt_self (block : Block) : hashAt block block.Nonce = block.calculateHash := rfl

/-- A run of the loop that returns: after some number `k` of failed attempts the block
has the nonce reached by `k` increments and the hash computed there; all attempts before
missed the target. -/
theorem mineLoop_trace {difficulty : Int} {target : GoString} :
    ∀ (fuel : Nat) (block block' : Block),
      mineLoop difficulty target fuel block = some (.returned block') →
      ∃ k : Nat, k < fuel ∧
        block' = { block with
          Hash := bytesOf (hashAt block (nonceAfter k block.Nonce)),
          Nonce := nonceAfter k block.Nonce } ∧
        (hashAt block (nonceAfter k block.Nonce)).take difficulty.toNat = target ∧
        ∀ j : Nat, j < k →
          (hashAt block (nonceAfter j block.Nonce)).take difficulty.toNat ≠ target := by
  intro fuel
  induction fuel with
  | zero => intro block block' h; simp [mineLoop] at h
  | succ fuel ih =>
    intro block block' h
    simp only [mineLoop] at h
    split at h
    · simp at h
    · rename_i head hs
      obtain ⟨hhead, -, -⟩ := slicePrefix_returned hs
      split at h
      · rename_i heq
        simp only [Option.some.injEq, Outcome.returned.injEq] at h
        refine ⟨0, by omega, h.symm, by rw [← heq, hhead]; rfl, fun j hj => by omega⟩
      · rename_i hne
        obtain ⟨k, hk, hb, hmeet, hmiss⟩ := ih _ _ h
        refine ⟨k + 1, by omega, hb, hmeet, fun j hj => ?_⟩
        cases j with
        | zero =>
          show List.take difficulty.toNat block.calculateHash ≠ target
          rw [← hhead]
          exact hne
        | succ j => exact hmiss j (by omega)

/-- More budget does not change the result of a run that has ended. -/
theorem mineLoop_mono {difficulty : Int} {target : GoString} (extra : Nat) :
    ∀ (fuel : Nat) (block : Block) (r : Outcome Block),
      mineLoop difficulty target fuel block = some r →
      mineLoop difficulty target (fuel + extra) block = some r := by
  intro fuel
  induction fuel with
  | zero => intro block r h; simp [mineLoop] at h
  | succ fuel ih =>
    intro block r h
    rw [show fuel + 1 + extra = (fuel + extra) + 1 by omega]
    simp only [mineLoop] at h ⊢
    split
    · rename_i hs; simpa [hs] using h
    · rename_i head hs
      simp only [hs] at h
      split
      · rename_i heq; simpa [heq] using h
      · rename_i hne
        simp only [hne, if_false] at h
        exact ih _ _ h

theorem MineBlock_mono (extra fuel : Nat) (block : Block) (difficulty : Int) (r : Outcome Block)
    (h : block.MineBlock fuel difficulty = some r) :
    block.MineBlock (fuel + extra) difficulty = some r := by
  unfold Block.MineBlock at h ⊢
  split
  · rename_i hs; simpa [hs] using h
  · rename_i target hs
    simp only [hs] at h
    exact mineLoop_mono extra fuel block r h

theorem MineBlock_trace (fuel : Nat) (block block' : Block) (difficulty : Int)
    (h : block.MineBlock fuel difficulty = some (.returned block')) :
    ∃ k : Nat, k < fuel ∧
      block' = { block with
        Hash := bytesOf (hashAt block (nonceAfter k block.Nonce)),
        Nonce := nonceAfter k block.Nonce } ∧
      meetsTarget block difficulty (nonceAfter k block.Nonce) ∧
      ∀ j : Nat, j < k → ¬ meetsTarget block difficulty (nonceAfter j block.Nonce) := by
  unfold Block.MineBlock at h
  split at h
  · simp at h
  · rename_i target ht
    have htarget := Repeat_zero_returned ht
    subst htarget
    exact mineLoop_trace fuel block block' h

/-- C12 (amended): a block returned by `MineBlock` has the timestamp, transactions and
previous hash it had before; its nonce is the initial nonce after `k` increments of the
counter, `k` being the number of failed attempts.  For an initial nonce in the range of
`int` that the `k` increments do not carry past 2^63 - 1, the final nonce is the initial
nonce plus `k`, hence not below it. -/
theorem MineBlock_frame (fuel : Nat) (block block' : Block) (difficulty : Int)
    (h : block.MineBlock fuel difficulty = some (.returned block')) :
    block'.Timestamp = block.Timestamp ∧ block'.Transactions = block.Transactions ∧
    block'.PrevBlockHash = block.PrevBlockHash ∧
    ∃ k : Nat, k < fuel ∧ block'.Nonce = nonceAfter k block.Nonce ∧
      (-2 ^ 63 ≤ block.Nonce → block.Nonce + k < 2 ^ 63 →
        block'.Nonce = block.Nonce + k ∧ block.Nonce ≤ block'.Nonce) := by
  obtain ⟨k, hk, hb, -, -⟩ := MineBlock_trace fuel block block' difficulty h
  subst hb
  refine ⟨rfl, rfl, rfl, k, hk, rfl, fun h0 h1 => ?_⟩
  have hn := nonceAfter_of_range k block.Nonce h0 h1
  refine ⟨hn, ?_⟩
  show block.Nonce ≤ nonceAfter k block.Nonce
  rw [hn]
  omega

/-- C12 (amended) on the example genesis block: 12 failed attempts from nonce 0. -/
theorem MineBlock_frame_witness :
    exampleGenesis.MineBlock 13 1 = some (.returned exampleGenesisMined) ∧
    exampleGenesisMined.Timestamp = exampleGenesis.Timestamp ∧
    exampleGenesisMined.Transactions = exampleGenesis.Transactions ∧
    exampleGenesisMined.PrevBlockHash = exampleGenesis.PrevBlockHash ∧
    ∃ k : Nat, k < 13 ∧ exampleGenesisMined.Nonce = nonceAfter k exampleGenesis.Nonce ∧
      (-2 ^ 63 ≤ exampleGenesis.Nonce → exampleGenesis.Nonce + k < 2 ^ 63 →
        exampleGenesisMined.Nonce = exampleGenesis.Nonce + k ∧
          exampleGenesis.Nonce ≤ exampleGenesisMined.Nonce) :=
  ⟨by decide!, MineBlock_frame 13 exampleGenesis exampleGenesisMined 1 (by decide!)⟩

/-- C12 as claimed fails: started at the largest `int`, the counter wraps around to the
smallest one; `MineBlock(1)` returns after 10 failed attempts with a negative nonce,
below the initial one. -/
theorem MineBlock_nonce_wraps_counterexample :
    exampleMaxNonce.MineBlock 11 1 = some (.returned exampleMaxNonceMined) ∧
    exampleMaxNonce.Nonce = 2 ^ 63 - 1 ∧
    exampleMaxNonceMined.Nonce = -2 ^ 63 + 9 ∧
    ¬ exampleMaxNonce.Nonce ≤ exampleMaxNonceMined.Nonce := by
  refine ⟨by decide!, by decide, by decide, by decide⟩

/-- C16 (amended): a block returned by `MineBlock` has the first nonce, in the order in
which the counter visits them from the initial nonce (by increments, wrapping at 64
bits), whose hash meets the target, and stores the hash computed at that nonce.  For an
initial nonce in the range of `int` that the increments do not carry past 2^63 - 1, this
is the least nonce at or above the initial one that meets the target.  Two runs on the
same block and difficulty end with the same result. -/
theorem MineBlock_first_nonce :
    (∀ (fuel : Nat) (block block' : Block) (difficulty : Int),
      block.MineBlock fuel difficulty = some (.returned block') →
      ∃ k : Nat, k < fuel ∧ block'.Nonce = nonceAfter k block.Nonce ∧
        block'.Hash = bytesOf (hashAt block block'.Nonce) ∧
        meetsTarget block difficulty block'.Nonce ∧
        (∀ j : Nat, j < k → ¬ meetsTarget block difficulty (nonceAfter j block.Nonce)) ∧
        (-2 ^ 63 ≤ block.Nonce → block.Nonce + k < 2 ^ 63 →
          block.Nonce ≤ block'.Nonce ∧
          ∀ n : Int, block.Nonce ≤ n → n < block'.Nonce → ¬ meetsTarget block difficulty n)) ∧
    (∀ (fuelA fuelB : Nat) (block : Block) (difficulty : Int) (rA rB : Outcome Block),
      block.MineBlock fuelA difficulty = some rA →
      block.MineBlock fuelB difficulty = some rB → rA = rB) := by
  constructor
  · intro fuel block block' difficulty h
    obtain ⟨k, hk, hb, hmeet, hmiss⟩ := MineBlock_trace fuel block block' difficulty h
    subst hb
    refine ⟨k, hk, rfl, rfl, hmeet, hmiss, fun h0 h1 => ?_⟩
    have hn := nonceAfter_of_range k block.Nonce h0 h1
    constructor
    · show block.Nonce ≤ nonceAfter k block.Nonce
      rw [hn]
      omega
    · intro n hlo hhi
      have hhi' : n < block.Nonce + k := by rw [← hn]; exact hhi
      have hj : (n - block.Nonce).toNat < k := by omega
      have := hmiss _ hj
      rwa [nonceAfter_of_range _ block.Nonce h0 (by omega),
        show block.Nonce + ((n - block.Nonce).toNat : Int) = n by omega] at this
  · intro fuelA fuelB block difficulty rA rB hA hB
    have eA := MineBlock_mono fuelB fuelA block difficulty rA hA
    have eB := MineBlock_mono fuelA fuelB block difficulty rB hB
    rw [Nat.add_comm] at eB
    rw [eA] at eB
    simpa using eB

/-- C16 (amended) on the example genesis block: nonces 0 to 11 miss the target, nonce 12
meets it, and a run with a larger budget gives the same block. -/
theorem MineBlock_first_nonce_witness :
    exampleGenesis.MineBlock 13 1 = some (.returned exampleGenesisMined) ∧
    (∃ k : Nat, k < 13 ∧ exampleGenesisMined.Nonce = nonceAfter k exampleGenesis.Nonce ∧
      exampleGenesisMined.Hash = bytesOf (hashAt exampleGenesis exampleGenesisMined.Nonce) ∧
      meetsTarget exampleGenesis 1 exampleGenesisMined.Nonce ∧
      (∀ j : Nat, j < k → ¬ meetsTarget exampleGenesis 1 (nonceAfter j exampleGenesis.Nonce)) ∧
      (-2 ^ 63 ≤ exampleGenesis.Nonce → exampleGenesis.Nonce + k < 2 ^ 63 →
        exampleGenesis.Nonce ≤ exampleGenesisMined.Nonce ∧
        ∀ n : Int, exampleGenesis.Nonce ≤ n → n < exampleGenesisMined.Nonce →
          ¬ meetsTarget exampleGenesis 1 n)) ∧
    exampleGenesis.MineBlock 20 1 = some (.returned exampleGenesisMined) ∧
    Outcome.returned exampleGenesisMined = Outcome.returned exampleGenesisMined :=
  ⟨by decide!,
   MineBlock_first_nonce.1 13 exampleGenesis exampleGenesisMined 1 (by decide!),
   by decide!,
   MineBlock_first_nonce.2 13 20 exampleGenesis 1 _ _ (by decide!) (by decide!)⟩

/-- C16 as claimed fails: the block starts at the largest `int`, whose hash misses the
target, and `MineBlock(1)` returns with a negative nonce; the final nonce is not at or
above the initial one. -/
theorem MineBlock_least_nonce_counterexample :
    exampleFullMaxNonce.MineBlock 12 1 = some (.returned exampleFullMaxNonceMined) ∧
    exampleFullMaxNonce.Nonce = 2 ^ 63 - 1 ∧
    ¬ meetsTarget exampleFullMaxNonce 1 exampleFullMaxNonce.Nonce ∧
    exampleFullMaxNonceMined.Nonce = -2 ^ 63 + 10 ∧
    ¬ exampleFullMaxNonce.Nonce ≤ exampleFullMaxNonceMined.Nonce := by
  refine ⟨by decide!, by decide, ?_, by decide, by decide⟩
  unfold meetsTarget
  decide!

/-! ### Validation: the chain it leaves -/

theorem transactionsToString_setSuccess (b : Block) :
    b.setSuccess.transactionsToString = b.transactionsToString := by
  rw [transactionsToString_eq, transactionsToString_eq]
  cases hT : b.Transactions with
  | none => simp [Block.setSuccess, Slice.elems, hT]
  | some txs => simp [Block.setSuccess, Slice.elems, hT, List.flatMap_map]

theorem calculateHash_setSuccess (b : Block) :
    b.setSuccess.calculateHash = b.calculateHash :=
  calculateHash_congr (b := b.setSuccess) (c := b) rfl (transactionsToString_setSuccess b) rfl rfl

theorem setSuccess_idem (b : Block) : b.setSuccess.setSuccess = b.setSuccess := by
  cases hT : b.Transactions with
  | none => simp [Block.setSuccess, hT]
  | some txs => simp [Block.setSuccess, hT, Function.comp_def]

theorem invalid_setSuccess (p c : Block) : invalid p c.setSuccess = invalid p c := by
  simp only [invalid, calculateHash_setSuccess]
  rfl

theorem DeepEqual_eq {a b : Slice UInt8} (h : DeepEqual a b = true) : a = b := by
  cases a <;> cases b <;> simp_all [DeepEqual]

theorem ChecksPass_head {link : Slice UInt8 → Slice UInt8 → Prop} {p q : Block}
    (hq : q.Hash = p.Hash) (rest : List Block) (h : ChecksPass link (p :: rest)) :
    ChecksPass link (q :: rest) := by
  cases rest with
  | nil => exact ChecksPass_single _ q
  | cons c rest =>
    rw [ChecksPass_cons] at h ⊢
    rw [hq]
    exact h

/-- Marking keeps the checks true, the links being then equal as slices. -/
theorem ChecksPass_map_setSuccess (rest : List Block) :
    ∀ p : Block, ChecksPass deeplyEqual (p :: rest) →
      ChecksPass sameSlice (p :: rest.map Block.setSuccess) ∧
      ChecksPass deeplyEqual (p :: rest.map Block.setSuccess) := by
  induction rest with
  | nil => intro p _; exact ⟨ChecksPass_single _ p, ChecksPass_single _ p⟩
  | cons c rest ih =>
    intro p h
    rw [ChecksPass_cons] at h
    obtain ⟨⟨hh, hl⟩, hrest⟩ := h
    have hc : c.setSuccess.Hash.toGoString = c.setSuccess.calculateHash := by
      rw [calculateHash_setSuccess]; exact hh
    obtain ⟨i1, i2⟩ := ih c hrest
    simp only [List.map_cons, ChecksPass_cons]
    exact ⟨⟨⟨hc, DeepEqual_eq hl⟩, ChecksPass_head (p := c) (q := c.setSuccess) rfl _ i1⟩,
      ⟨⟨hc, hl⟩, ChecksPass_head (p := c) (q := c.setSuccess) rfl _ i2⟩⟩

theorem Validation_returned_len {bc bc' : Blockchain} {err : GoError}
    (h : bc.Validation = .returned (bc', err)) : 1 ≤ bc.Blocks.len := by
  by_contra hc
  simp [Blockchain.Validation, show bc.Blocks.len < 1 by omega] at h

/-- What a successful validation leaves, and that its blocks then pass the checks. -/
theorem Validation_nil_result {bc bc' : Blockchain} (h : bc.Validation = .returned (bc', none)) :
    ∃ (g : Block) (rest : List Block),
      bc' = { bc with Blocks := some (g :: rest.map Block.setSuccess) } ∧
      ChecksPass sameSlice (g :: rest.map Block.setSuccess) ∧
      ChecksPass deeplyEqual (g :: rest.map Block.setSuccess) := by
  obtain ⟨g, rest, hb⟩ := Slice.exists_cons_of_len (Validation_returned_len h)
  rw [Validation_eq bc g rest hb] at h
  simp only [Outcome.returned.injEq, Prod.mk.injEq] at h
  obtain ⟨hv, hp⟩ := validateFrom_none_iff rest g
  refine ⟨g, rest, ?_, ChecksPass_map_setSuccess rest g (hv.1 h.2)⟩
  rw [← h.1, hp h.2]

/-- C14: in the chain left by a validation that returned nil, every non-genesis block
has a `PrevBlockHash` equal to the stored hash of the block before it and stores the hash
recomputed from its content as it now stands. -/
theorem Validation_nil_invariant (bc bc' : Blockchain)
    (h : bc.Validation = .returned (bc', none)) :
    ∀ (i : Nat) (previousBlock currentBlock : Block),
      bc'.Blocks.elems[i]? = some previousBlock → bc'.Blocks.elems[i + 1]? = some currentBlock →
        currentBlock.PrevBlockHash = previousBlock.Hash ∧
        currentBlock.Hash = bytesOf currentBlock.calculateHash := by
  obtain ⟨g, rest, hb, hs, -⟩ := Validation_nil_result h
  subst hb
  intro i p c hp hc
  obtain ⟨hh, hl⟩ := hs i p c hp hc
  refine ⟨hl, ?_⟩
  cases hH : c.Hash with
  | none =>
    have hlen := calculateHash_length c
    rw [← hh, hH] at hlen
    simp [Slice.toGoString, Slice.elems] at hlen
  | some x =>
    rw [hH] at hh
    simp only [Slice.toGoString, Slice.elems, Option.getD_some] at hh
    rw [hh]
    rfl

/-- C14 on the example chain. -/
theorem Validation_nil_invariant_witness :
    exampleChain.Validation = .returned (exampleChainMarked, none) ∧
    ∀ (i : Nat) (previousBlock currentBlock : Block),
      exampleChainMarked.Blocks.elems[i]? = some previousBlock →
      exampleChainMarked.Blocks.elems[i + 1]? = some currentBlock →
        currentBlock.PrevBlockHash = previousBlock.Hash ∧
        currentBlock.Hash = bytesOf currentBlock.calculateHash :=
  ⟨by decide!, Validation_nil_invariant exampleChain exampleChainMarked (by decide!)⟩

/-- C19: a validation that returned nil, run again on the chain it left, returns nil
again and leaves that chain as it is. -/
theorem Validation_idempotent (bc bc' : Blockchain)
    (h : bc.Validation = .returned (bc', none)) :
    bc'.Validation = .returned (bc', none) := by
  obtain ⟨g, rest, hb, -, hd⟩ := Validation_nil_result h
  subst hb
  obtain ⟨hv, hp⟩ := validateFrom_none_iff (rest.map Block.setSuccess) g
  have hnone := hv.2 hd
  rw [Validation_eq { bc with Blocks := some (g :: rest.map Block.setSuccess) } g
    (rest.map Block.setSuccess) rfl, hnone, hp hnone]
  simp [setSuccess_idem]

/-- C19 on the example chain. -/
theorem Validation_idempotent_witness :
    exampleChain.Validation = .returned (exampleChainMarked, none) ∧
    exampleChainMarked.Validation = .returned (exampleChainMarked, none) :=
  ⟨by decide!, Validation_idempotent exampleChain exampleChainMarked (by decide!)⟩

/-! ### An unmined tail -/

theorem AddBlock_eq (bc : Blockchain) (now : Time) (init : List Block) (tail : Block)
    (hb : bc.Blocks.elems = init ++ [tail]) :
    bc.AddBlock now =
      .returned { bc with Blocks := some (init ++ [tail] ++ [newBlock now tail]) } := by
  simp [Blockchain.AddBlock, Slice.index_last bc.Blocks init tail hb, Slice.append, hb,
    newBlock]

theorem not_ChecksPass_unmined (link : Slice UInt8 → Slice UInt8 → Prop) (init : List Block)
    (tail new : Block) (hn : new.Hash.len = 0) : ¬ ChecksPass link (init ++ [tail] ++ [new]) := by
  intro h
  have h0 : (init ++ [tail] ++ [new])[init.length]? = some tail := by
    rw [List.append_assoc, List.getElem?_append_right (le_refl _)]
    simp
  have h1 : (init ++ [tail] ++ [new])[init.length + 1]? = some new := by
    rw [List.getElem?_append_right (by simp)]
    simp
  have hh := (h init.length tail new h0 h1).1
  have hlen := calculateHash_length new
  rw [← hh] at hlen
  simp only [Slice.len, Slice.toGoString] at hn hlen
  omega

/-- C18: on a chain with at least one block, `AddBlock` returns and `Validation` of the
chain it leaves returns an error: the appended block stores the empty hash, never the
64 characters of `calculateHash()`. -/
theorem Validation_after_AddBlock (bc : Blockchain) (now : Time) (h : 1 ≤ bc.Blocks.len) :
    ∃ (bc1 bc2 : Blockchain) (msg : String),
      bc.AddBlock now = .returned bc1 ∧ bc1.Validation = .returned (bc2, some msg) := by
  obtain ⟨init, tail, hb⟩ := exists_init_last h
  have hne : ¬ ChecksPass deeplyEqual (init ++ [tail] ++ [newBlock now tail]) :=
    not_ChecksPass_unmined _ init tail _ rfl
  cases hl : init ++ [tail] ++ [newBlock now tail] with
  | nil => simp at hl
  | cons g rest =>
    rw [hl] at hne
    have hsome : (validateFrom g rest).2 ≠ none :=
      fun hc => hne ((validateFrom_none_iff rest g).1.1 hc)
    obtain ⟨msg, hmsg⟩ := Option.ne_none_iff_exists'.1 hsome
    have hv := Validation_eq
      { bc with Blocks := some (init ++ [tail] ++ [newBlock now tail]) } g rest
      (by simp [Slice.elems, hl])
    rw [hmsg] at hv
    exact ⟨_, _, msg, AddBlock_eq bc now init tail hb, hv⟩

/-- C18 on the example chain. -/
theorem Validation_after_AddBlock_witness :
    1 ≤ exampleChain.Blocks.len ∧
    ∃ (bc1 bc2 : Blockchain) (msg : String),
      exampleChain.AddBlock exampleTime = .returned bc1 ∧
      bc1.Validation = .returned (bc2, some msg) :=
  ⟨by decide, Validation_after_AddBlock exampleChain exampleTime (by decide)⟩

/-! ### Two blocks, one record -/

/-- C20: the two example blocks agree on timestamp, previous hash and nonce and differ in
their transactions, yet both lists of transactions read `AB10`, so the records and the
hashes of the two blocks are the same. -/
theorem calculateHash_collision :
    exampleCollisionA.Timestamp = exampleCollisionB.Timestamp ∧
    exampleCollisionA.PrevBlockHash = exampleCollisionB.PrevBlockHash ∧
    exampleCollisionA.Nonce = exampleCollisionB.Nonce ∧
    exampleCollisionA.Transactions ≠ exampleCollisionB.Transactions ∧
    exampleCollisionA.transactionsToString = lit "AB10" ∧
    exampleCollisionB.transactionsToString = lit "AB10" ∧
    specRecord exampleCollisionA = specRecord exampleCollisionB ∧
    exampleCollisionA.calculateHash = exampleCollisionB.calculateHash := by
  decide!

/-! ### Reachable chains -/

theorem updateAt_length {α : Type} (f : α → α) (i : Nat) (l : List α) :
    (updateAt f i l).length = l.length := by
  induction l generalizing i with
  | nil => cases i <;> rfl
  | cons x xs ih => cases i <;> simp [updateAt, ih]

theorem updateAt_some_cons {α : Type} (f : α → α) (i : Nat) (g : α) (rest : List α) :
    ∃ rest' : List α, rest'.length = rest.length ∧
      Slice.updateAt (some (g :: rest)) i f = some ((if i = 0 then f g else g) :: rest') := by
  cases i with
  | zero => exact ⟨rest, rfl, rfl⟩
  | succ i => exact ⟨updateAt f i rest, updateAt_length f i rest, rfl⟩

theorem validateFrom_length (rest : List Block) :
    ∀ p : Block, (validateFrom p rest).1.length = rest.length := by
  induction rest with
  | nil => intro p; rfl
  | cons c rest ih =>
    intro p
    rw [validateFrom_cons]
    split
    · rfl
    · simp [ih c]

theorem AddTransactionToBlock_returned {bc bc' : Blockchain} {tx : Transaction}
    (h : bc.AddTransactionToBlock tx = .returned bc') :
    ∃ i : Nat, bc' = { bc with Blocks := bc.Blocks.updateAt i (Block.addTransaction tx) } := by
  unfold Blockchain.AddTransactionToBlock at h
  split at h
  · exact ⟨_, by injection h with h; exact h.symm⟩
  · split at h
    · exact ⟨_, by injection h with h; exact h.symm⟩
    · cases h

theorem AddBlock_returned {bc bc' : Blockchain} {now : Time}
    (h : bc.AddBlock now = .returned bc') :
    ∃ new : Block, bc' = { bc with Blocks := some (bc.Blocks.elems ++ [new]) } := by
  unfold Blockchain.AddBlock at h
  split at h
  · cases h
  · injection h with h
    exact ⟨_, h.symm⟩

/-- A step keeps the first block in place, with its timestamp and previous hash, and does
not lower the number of blocks. -/
theorem Step_preserves {bc bc' : Blockchain} (hs : Step bc bc') (g : Block) (rest : List Block)
    (hb : bc.Blocks = some (g :: rest)) :
    ∃ (g' : Block) (rest' : List Block), bc'.Blocks = some (g' :: rest') ∧
      g'.Timestamp = g.Timestamp ∧ g'.PrevBlockHash = g.PrevBlockHash ∧
      rest.length ≤ rest'.length := by
  cases hs with
  | addTransaction tx => exact ⟨g, rest, hb, rfl, rfl, le_refl _⟩
  | addTransactionToBlock tx h =>
    obtain ⟨i, rfl⟩ := AddTransactionToBlock_returned h
    obtain ⟨rest', hl, hu⟩ := updateAt_some_cons (Block.addTransaction tx) i g rest
    refine ⟨_, rest', by simp only [hb]; exact hu, ?_, ?_, by omega⟩ <;>
      split <;> rfl
  | addBlock now h =>
    obtain ⟨new, rfl⟩ := AddBlock_returned h
    exact ⟨g, rest ++ [new], by simp [hb, Slice.elems], rfl, rfl, by simp⟩
  | mineBlock i fuel difficulty block block' hi hm =>
    obtain ⟨rest', hl, hu⟩ := updateAt_some_cons (fun _ => block') i g rest
    obtain ⟨k, -, hb', -, -⟩ := MineBlock_trace fuel block block' difficulty hm
    refine ⟨_, rest', by simp only [hb]; exact hu, ?_, ?_, by omega⟩
    · split
      · rename_i h0
        subst h0
        simp only [hb, Slice.elems, Option.getD_some, List.getElem?_cons_zero,
          Option.some.injEq] at hi
        rw [hb', hi]
      · rfl
    · split
      · rename_i h0
        subst h0
        simp only [hb, Slice.elems, Option.getD_some, List.getElem?_cons_zero,
          Option.some.injEq] at hi
        rw [hb', hi]
      · rfl
  | validation err h =>
    rw [Validation_eq bc g rest (by simp [hb, Slice.elems])] at h
    injection h with h
    injection h with h1 h2
    subst h1
    exact ⟨g, _, rfl, rfl, rfl, by rw [validateFrom_length]⟩

theorem Reachable_genesis {d : Int} {t : Time} {bc : Blockchain} (h : Reachable d t bc) :
    GenesisAtZero t bc := by
  unfold Reachable at h
  induction h with
  | refl => exact ⟨_, [], rfl, rfl, rfl⟩
  | tail _ hs ih =>
    obtain ⟨g, rest, hb, ht, hp⟩ := ih
    obtain ⟨g', rest', hb', ht', hp', -⟩ := Step_preserves hs g rest hb
    exact ⟨g', rest', hb', by rw [ht', ht], by rw [hp', hp]⟩

/-- C15: a chain reached from `CreateBlockchain(d, t)` by calls of `AddTransaction`,
`AddTransactionToBlock`, `AddBlock`, `MineBlock` on one of its blocks and `Validation`
has at least one block, its index 0 still holding the block of time `t` without previous
hash; on it `AddTransactionToBlock` and `AddBlock` return instead of panicking.  No such
call lowers the number of blocks. -/
theorem Reachable_nonempty :
    (∀ (d : Int) (t : Time) (bc : Blockchain), Reachable d t bc →
      1 ≤ bc.Blocks.len ∧ GenesisAtZero t bc ∧
      (∀ tx : Transaction, ∃ bc', bc.AddTransactionToBlock tx = .returned bc') ∧
      (∀ now : Time, ∃ bc', bc.AddBlock now = .returned bc')) ∧
    (∀ bc bc' : Blockchain, Step bc bc' → bc.Blocks.len ≤ bc'.Blocks.len) := by
  constructor
  · intro d t bc h
    have hg := Reachable_genesis h
    obtain ⟨g, rest, hb, -, -⟩ := hg
    have hl : 1 ≤ bc.Blocks.len := by simp [Slice.len, Slice.elems, hb]
    refine ⟨hl, Reachable_genesis h, fun tx => ?_, fun now => ?_⟩
    · unfold Blockchain.AddTransactionToBlock
      by_cases h1 : bc.Blocks.len > 1
      · exact ⟨_, by rw [if_pos h1]⟩
      · exact ⟨_, by rw [if_neg h1, if_pos (by omega)]⟩
    · obtain ⟨init, tail, hi⟩ := exists_init_last hl
      exact ⟨_, AddBlock_eq bc now init tail hi⟩
  · intro bc bc' hs
    by_cases hl : 1 ≤ bc.Blocks.len
    · obtain ⟨g, rest, hb⟩ := Slice.exists_cons_of_len hl
      obtain ⟨g', rest', hb', -, -, hlen⟩ := Step_preserves hs g rest (Slice.elems_cons hb)
      simp only [Slice.len, Slice.elems, Slice.elems_cons hb, hb', Option.getD_some,
        List.length_cons]
      omega
    · omega

/-- C15 on a chain reached in two calls, `AddTransaction` and then `AddBlock`; the second
call takes the number of blocks from 1 to 2. -/
theorem Reachable_nonempty_witness :
    Reachable 3 exampleTime exampleReached ∧
    (1 ≤ exampleReached.Blocks.len ∧ GenesisAtZero exampleTime exampleReached ∧
      (∀ tx : Transaction, ∃ bc', exampleReached.AddTransactionToBlock tx = .returned bc') ∧
      (∀ now : Time, ∃ bc', exampleReached.AddBlock now = .returned bc')) ∧
    Step ((CreateBlockchain 3 exampleTime).AddTransaction exampleTx1) exampleReached ∧
    ((CreateBlockchain 3 exampleTime).AddTransaction exampleTx1).Blocks.len ≤
      exampleReached.Blocks.len :=
  have hstep : Step ((CreateBlockchain 3 exampleTime).AddTransaction exampleTx1)
      exampleReached := Step.addBlock exampleTime (by decide)
  have hreach : Reachable 3 exampleTime exampleReached :=
    Relation.ReflTransGen.tail
      (Relation.ReflTransGen.single (Step.addTransaction exampleTx1)) hstep
  ⟨hreach, Reachable_nonempty.1 3 exampleTime exampleReached hreach, hstep,
    Reachable_nonempty.2 _ _ hstep⟩

/-! ### Memory -/

theorem updateAt_getElem? {α : Type} (f : α → α) (l : List α) :
    ∀ i j : Nat, (updateAt f i l)[j]? = if j = i then l[j]?.map f else l[j]? := by
  induction l with
  | nil => intro i j; cases i <;> simp [updateAt]
  | cons x xs ih =>
    intro i j
    cases i with
    | zero => cases j <;> simp [updateAt]
    | succ i => cases j <;> simp [updateAt, ih]

theorem Heap.write_length (h : Heap) (a i : Nat) (f : Transaction → Transaction) :
    (h.write a i f).length = h.length :=
  updateAt_length _ a h

theorem Heap.write_getD (h : Heap) (a i a' : Nat) (f : Transaction → Transaction) :
    (h.write a i f).getD a' [] = if a' = a then updateAt f i (h.getD a' []) else h.getD a' [] := by
  simp only [Heap.write, List.getD_eq_getElem?_getD, updateAt_getElem?]
  split
  · cases h[a']? <;> simp [updateAt]
  · rfl

theorem Heap.write_getD_length (h : Heap) (a i a' : Nat) (f : Transaction → Transaction) :
    ((h.write a i f).getD a' []).length = (h.getD a' []).length := by
  rw [Heap.write_getD]
  split
  · exact updateAt_length f i _
  · rfl

theorem Heap.write_cell (h : Heap) (a i a' j : Nat) (f : Transaction → Transaction) :
    (h.write a i f).cell a' j =
      if a' = a ∧ j = i then (h.cell a' j).map f else h.cell a' j := by
  simp only [Heap.cell, Heap.write_getD]
  by_cases ha : a' = a
  · simp only [ha, if_true, updateAt_getElem?, true_and]
  · simp [ha]

theorem TxSlice.read_getElem? (s : TxSlice) (h : Heap) (j : Nat) :
    (s.read h)[j]? = if j < s.len then h.cell s.arr (s.off + j) else none := by
  simp only [TxSlice.read, List.getElem?_take, List.getElem?_drop, Heap.cell]

theorem TxSlice.read_length (s : TxSlice) (h : Heap) (hb : s.inBounds h = true) :
    (s.read h).length = s.len := by
  simp only [TxSlice.inBounds, Bool.and_eq_true, decide_eq_true_eq] at hb
  simp only [TxSlice.read, List.length_take, List.length_drop]
  omega

/-- Reading a slice depends only on the cells in its window. -/
theorem TxSlice.read_congr (s : TxSlice) (h h' : Heap)
    (hc : ∀ j, j < s.len → h'.cell s.arr (s.off + j) = h.cell s.arr (s.off + j)) :
    s.read h' = s.read h := by
  apply List.ext_getElem?
  intro j
  rw [TxSlice.read_getElem?, TxSlice.read_getElem?]
  split
  · rename_i hj; exact hc j hj
  · rfl

theorem TxSlice.disjoint_comm (s t : TxSlice) : s.disjoint t = t.disjoint s := by
  simp only [TxSlice.disjoint, Bool.or_assoc]
  rw [Bool.or_comm (decide (s.off + s.cap ≤ t.off))]
  congr 1
  simp [bne, BEq.comm]

/-- Where two disjoint slices in bounds lie: a cell within the capacity of one is not a
cell within the capacity of the other. -/
theorem TxSlice.disjoint_cells {s t : TxSlice} (hd : s.disjoint t = true) {i j : Nat}
    (hi : i < s.cap) (hj : j < t.cap) : ¬ (t.arr = s.arr ∧ t.off + j = s.off + i) := by
  simp only [TxSlice.disjoint, Bool.or_eq_true, bne_iff_ne, ne_eq, decide_eq_true_eq] at hd
  rintro ⟨ha, hc⟩
  rcases hd with (hd | hd) | hd
  · exact hd ha.symm
  · omega
  · omega

theorem getD_append_left (h : Heap) (x : List Transaction) {a : Nat} (ha : a < h.length) :
    (h ++ [x]).getD a [] = h.getD a [] := by
  simp only [List.getD_eq_getElem?_getD, List.getElem?_append_left ha]

theorem getD_append_new (h : Heap) (x : List Transaction) :
    (h ++ [x]).getD h.length [] = x := by
  simp [List.getD_eq_getElem?_getD]

/-- The slice returned by `append` reads as the old elements followed by the new one. -/
theorem appendTx_read_own (spare : Nat) (h : Heap) (s : Option TxSlice) (x : Transaction)
    (hb : inBoundsOpt h s = true) :
    (appendTx spare h s x).2.read (appendTx spare h s x).1 = (readTx h s).elems ++ [x] := by
  cases s with
  | none => simp [appendTx, TxSlice.read, readTx, Slice.elems]
  | some s =>
    have hlen := TxSlice.read_length s h hb
    simp only [inBoundsOpt, TxSlice.inBounds, Bool.and_eq_true, decide_eq_true_eq] at hb
    simp only [appendTx, readTx, Option.map_some', Slice.elems, Option.getD_some]
    split
    · rename_i hlt
      apply List.ext_getElem?
      intro j
      simp only [TxSlice.read_getElem?, Heap.write_cell, true_and]
      by_cases hj : j < s.len
      · have h1 : j < s.len + 1 := by omega
        have h2 : ¬ s.off + j = s.off + s.len := by omega
        rw [List.getElem?_append_left (by omega)]
        simp [h1, h2, hj, TxSlice.read_getElem?]
      · by_cases hj' : j = s.len
        · subst hj'
          have hcell : (h.cell s.arr (s.off + s.len)).isSome := by
            simp only [Heap.cell]
            rw [List.getElem?_eq_getElem (by omega)]
            rfl
          obtain ⟨c, hc⟩ := Option.isSome_iff_exists.1 hcell
          rw [List.getElem?_append_right (by omega)]
          simp [hc, hlen]
        · have h1 : ¬ j < s.len + 1 := by omega
          rw [List.getElem?_append_right (by omega)]
          simp only [h1, if_false, hlen]
          have : j - s.len ≠ 0 := by omega
          cases hk : j - s.len with
          | zero => omega
          | succ k => simp
    · have ht := @List.take_append Transaction (s.read h)
        (x :: List.replicate spare Transaction.zero) 1
      rw [hlen] at ht
      simp only [TxSlice.read, getD_append_new, List.drop_zero] at ht ⊢
      rw [ht]
      rfl

theorem appendTx_inBounds_own (spare : Nat) (h : Heap) (s : Option TxSlice) (x : Transaction)
    (hb : inBoundsOpt h s = true) :
    (appendTx spare h s x).2.inBounds (appendTx spare h s x).1 = true := by
  cases s with
  | none => simp [appendTx, TxSlice.inBounds, getD_append_new]; omega
  | some s =>
    have hlen := TxSlice.read_length s h hb
    simp only [inBoundsOpt, TxSlice.inBounds, Bool.and_eq_true, decide_eq_true_eq] at hb
    simp only [appendTx]
    split
    · simp only [TxSlice.inBounds, Heap.write_length, Heap.write_getD_length, Bool.and_eq_true,
        decide_eq_true_eq]
      omega
    · simp only [TxSlice.inBounds, getD_append_new, List.length_append, List.length_cons,
        List.length_replicate, List.length_singleton, hlen, Bool.and_eq_true, decide_eq_true_eq]
      omega

/-- A slice in bounds that shares no cell with the slice appended to reads as before, and
stays in bounds. -/
theorem appendTx_other (spare : Nat) (h : Heap) (s : Option TxSlice) (x : Transaction)
    (t : TxSlice) (ht : t.inBounds h = true) (hs : inBoundsOpt h s = true)
    (hd : disjointOpt (some t) s = true) :
    t.read (appendTx spare h s x).1 = t.read h ∧
      t.inBounds (appendTx spare h s x).1 = true := by
  have ht' := ht
  simp only [TxSlice.inBounds, Bool.and_eq_true, decide_eq_true_eq] at ht'
  have hgrow : ∀ new : List Transaction,
      t.read (h ++ [new]) = t.read h ∧ t.inBounds (h ++ [new]) = true := by
    intro new
    constructor
    · simp only [TxSlice.read, getD_append_left h new ht'.1.2]
    · simp only [TxSlice.inBounds, getD_append_left h new ht'.1.2, List.length_append,
        List.length_singleton, Bool.and_eq_true, decide_eq_true_eq]
      omega
  cases s with
  | none => exact hgrow _
  | some s =>
    simp only [inBoundsOpt, TxSlice.inBounds, Bool.and_eq_true, decide_eq_true_eq] at hs
    simp only [disjointOpt] at hd
    simp only [appendTx]
    split
    · rename_i hlt
      constructor
      · apply TxSlice.read_congr
        intro j hj
        rw [Heap.write_cell]
        split
        · rename_i hc
          exfalso
          exact TxSlice.disjoint_cells (TxSlice.disjoint_comm t s ▸ hd) hlt
            (show j < t.cap by omega) ⟨hc.1, hc.2⟩
        · rfl
      · simp only [TxSlice.inBounds, Heap.write_length, Heap.write_getD_length]
        exact ht
    · exact hgrow _


/-! ### Calls on shared storage -/

theorem Blockchain.eq_of_fields {a b : Blockchain} (h1 : a.Blocks = b.Blocks)
    (h2 : a.TransactionPool = b.TransactionPool) (h3 : a.difficulty = b.difficulty) : a = b := by
  cases a
  cases b
  simp_all

theorem disjointOpt_comm (s t : Option TxSlice) : disjointOpt s t = disjointOpt t s := by
  cases s <;> cases t <;> simp [disjointOpt, TxSlice.disjoint_comm]

theorem readTx_elems_append (spare : Nat) (h : Heap) (s : Option TxSlice) (x : Transaction)
    (hb : inBoundsOpt h s = true) :
    readTx (appendTx spare h s x).1 (some (appendTx spare h s x).2) =
      some ((readTx h s).elems ++ [x]) := by
  simp only [readTx, Option.map_some', appendTx_read_own spare h s x hb]

/-- After `append` to `s`, a slice that shares no cell with `s` reads as before. -/
theorem readTx_appendTx_other (spare : Nat) (h : Heap) (s t : Option TxSlice) (x : Transaction)
    (ht : inBoundsOpt h t = true) (hs : inBoundsOpt h s = true)
    (hd : disjointOpt t s = true) :
    readTx (appendTx spare h s x).1 t = readTx h t := by
  cases t with
  | none => rfl
  | some t =>
    simp only [readTx, Option.map_some']
    rw [(appendTx_other spare h s x t ht hs hd).1]

theorem MemBlock.view_congr {h h' : Heap} {b : MemBlock}
    (hr : readTx h' b.Transactions = readTx h b.Transactions) : b.view h' = b.view h := by
  simp only [MemBlock.view, hr]

theorem Slice.map_congr {α β : Type} (s : Slice α) (f g : α → β)
    (hfg : ∀ b ∈ s.elems, f b = g b) : s.map (List.map f) = s.map (List.map g) := by
  cases s with
  | none => rfl
  | some l =>
    simp only [Option.map_some', Option.some.injEq]
    exact List.map_congr_left fun b hb => hfg b (by simpa [Slice.elems] using hb)

/-- The pool after `AddTransaction`, whatever is shared. -/
theorem Mem.AddTransaction_pool (spare : Nat) (h : Heap) (bc : MemChain) (tx : Transaction)
    (hw : bc.WellFormed h) :
    ((Mem.AddTransaction spare h bc tx).2.view (Mem.AddTransaction spare h bc tx).1).TransactionPool
      = some ((bc.view h).TransactionPool.elems ++ [tx]) ∧
    inBoundsOpt (Mem.AddTransaction spare h bc tx).1
      (Mem.AddTransaction spare h bc tx).2.TransactionPool = true :=
  ⟨readTx_elems_append spare h bc.TransactionPool tx hw.1,
    appendTx_inBounds_own spare h bc.TransactionPool tx hw.1⟩

/-- The blocks after `AddTransaction` on a chain without shared cells. -/
theorem Mem.AddTransaction_blocks (spare : Nat) (h : Heap) (bc : MemChain) (tx : Transaction)
    (hw : bc.WellFormed h) (hs : bc.Separated) :
    ((Mem.AddTransaction spare h bc tx).2.view (Mem.AddTransaction spare h bc tx).1).Blocks
      = (bc.view h).Blocks := by
  simp only [MemChain.view, Mem.AddTransaction]
  apply Slice.map_congr
  intro b hmem
  apply MemBlock.view_congr
  exact readTx_appendTx_other spare h _ _ tx (hw.2 b hmem) hw.1
    (by rw [disjointOpt_comm]; exact hs.2 b hmem)

/-- C7 (amended): `AddTransaction(tx)` leaves the pool as the old pool followed by `tx`
and the difficulty as it was; two additions to an empty pool leave `[a, b]`.  On a chain
whose transaction slices share no cell, nothing else changes: the chain is the old one
with that pool. -/
theorem Mem.AddTransaction_appends :
    (∀ (spare : Nat) (h : Heap) (bc : MemChain) (tx : Transaction), bc.WellFormed h →
      (Mem.result (Mem.AddTransaction spare h bc tx)).TransactionPool =
        some ((bc.view h).TransactionPool.elems ++ [tx]) ∧
      (Mem.result (Mem.AddTransaction spare h bc tx)).difficulty = (bc.view h).difficulty ∧
      (bc.Separated →
        Mem.result (Mem.AddTransaction spare h bc tx) =
          { bc.view h with
            TransactionPool := some ((bc.view h).TransactionPool.elems ++ [tx]) })) ∧
    (∀ (spare spare' : Nat) (h : Heap) (bc : MemChain) (a b : Transaction),
      bc.WellFormed h → (bc.view h).TransactionPool.elems = [] →
      (Mem.result (Mem.AddTransaction spare' (Mem.AddTransaction spare h bc a).1
        (Mem.AddTransaction spare h bc a).2 b)).TransactionPool = some [a, b]) := by
  constructor
  · intro spare h bc tx hw
    have hp := (Mem.AddTransaction_pool spare h bc tx hw).1
    refine ⟨hp, rfl, fun hs => ?_⟩
    exact Blockchain.eq_of_fields (Mem.AddTransaction_blocks spare h bc tx hw hs) hp rfl
  · intro spare spare' h bc a b hw he
    obtain ⟨hp, hin⟩ := Mem.AddTransaction_pool spare h bc a hw
    have h2 := readTx_elems_append spare' (Mem.AddTransaction spare h bc a).1
      (Mem.AddTransaction spare h bc a).2.TransactionPool b hin
    have hp' : readTx (Mem.AddTransaction spare h bc a).1
        (Mem.AddTransaction spare h bc a).2.TransactionPool = some [a] := by
      rw [he] at hp
      exact hp
    rw [hp'] at h2
    exact h2

/-- C7 (amended) on chains without sharing: an addition into the spare cell of the pool of
`exampleMemChain`, and two additions to the empty pool of a new chain. -/
theorem Mem.AddTransaction_appends_witness :
    exampleMemChain.WellFormed exampleSeparateHeap ∧ exampleMemChain.Separated ∧
    exampleMemChain.view exampleSeparateHeap = exampleChain ∧
    Mem.result (Mem.AddTransaction 0 exampleSeparateHeap exampleMemChain exampleTx3) =
      { exampleMemChain.view exampleSeparateHeap with
        TransactionPool := some
          ((exampleMemChain.view exampleSeparateHeap).TransactionPool.elems ++ [exampleTx3]) } ∧
    exampleMemCreated.WellFormed [[]] ∧
    exampleMemCreated.view [[]] = CreateBlockchain 3 exampleTime ∧
    (Mem.result (Mem.AddTransaction 0 (Mem.AddTransaction 0 [[]] exampleMemCreated exampleTx1).1
      (Mem.AddTransaction 0 [[]] exampleMemCreated exampleTx1).2 exampleTx2)).TransactionPool =
      some [exampleTx1, exampleTx2] :=
  have hw : exampleMemChain.WellFormed exampleSeparateHeap := by
    unfold MemChain.WellFormed; decide
  have hs : exampleMemChain.Separated := by unfold MemChain.Separated; decide
  have hw' : exampleMemCreated.WellFormed [[]] := by unfold MemChain.WellFormed; decide
  ⟨hw, hs, by decide,
    (Mem.AddTransaction_appends.1 0 exampleSeparateHeap exampleMemChain exampleTx3 hw).2.2 hs,
    hw', by decide,
    Mem.AddTransaction_appends.2 0 0 [[]] exampleMemCreated exampleTx1 exampleTx2 hw' (by decide)⟩

/-- C7 as claimed fails: here the block holds both cells of an array whose first cell is
the pool; `AddTransaction` writes the new transaction into the second cell, so the
transactions of the block change from `[tx1, tx2]` to `[tx1, tx3]`. -/
theorem AddTransaction_shared_counterexample :
    examplePoolInBlock.WellFormed exampleSharedHeap ∧
    (examplePoolInBlock.view exampleSharedHeap).Blocks =
      some [{ exampleGenesis with Transactions := some [exampleTx1, exampleTx2] }] ∧
    (Mem.result (Mem.AddTransaction 0 exampleSharedHeap examplePoolInBlock exampleTx3)).Blocks =
      some [{ exampleGenesis with Transactions := some [exampleTx1, exampleTx3] }] ∧
    (Mem.result (Mem.AddTransaction 0 exampleSharedHeap examplePoolInBlock exampleTx3)).Blocks ≠
      (examplePoolInBlock.view exampleSharedHeap).Blocks := by
  refine ⟨by unfold MemChain.WellFormed; decide, by decide, by decide, by decide⟩

theorem Pairwise_last_disjoint {init : List MemBlock} {last : MemBlock}
    (hp : ((init ++ [last]).map fun b => b.Transactions).Pairwise
      (fun s t => disjointOpt s t = true)) :
    ∀ b ∈ init, disjointOpt b.Transactions last.Transactions = true := by
  rw [List.map_append, List.pairwise_append] at hp
  intro b hb
  exact hp.2.2 _ (List.mem_map_of_mem _ hb) _ (by simp)

/-- The append of line 70 on a chain without shared cells, in terms of contents. -/
theorem Mem.appendToBlock_last (spare : Nat) (h : Heap) (bc : MemChain) (tx : Transaction)
    (init : List MemBlock) (last : MemBlock) (hb : bc.Blocks.elems = init ++ [last])
    (hw : bc.WellFormed h) (hs : bc.Separated) :
    Mem.result (Mem.appendToBlock spare h bc init.length tx) =
      { bc.view h with
        Blocks := some (init.map (MemBlock.view h) ++
          [{ last.view h with
             Transactions := some ((last.view h).Transactions.elems ++ [tx]) }]) } := by
  have hB : bc.Blocks = some (init ++ [last]) := by
    cases hB : bc.Blocks with
    | none => simp [Slice.elems, hB] at hb
    | some l => simp [Slice.elems, hB] at hb; rw [hb]
  have hget : bc.Blocks.elems[init.length]? = some last := by
    rw [hb, List.getElem?_append_right (le_refl _)]
    simp
  have hlast : last ∈ bc.Blocks.elems := by rw [hb]; simp
  have hinit : ∀ b ∈ init, b ∈ bc.Blocks.elems := fun b hm => by rw [hb]; simp [hm]
  have hwl := hw.2 last hlast
  have hsep := Pairwise_last_disjoint (hb ▸ hs.1)
  simp only [Mem.appendToBlock, hget, Mem.result]
  apply Blockchain.eq_of_fields
  · simp only [MemChain.view, hB, Slice.updateAt, Option.map_some', updateAt_last,
      List.map_append, List.map_cons, List.map_nil, Option.some.injEq]
    congr 1
    · apply List.map_congr_left
      intro b hm
      apply MemBlock.view_congr
      exact readTx_appendTx_other spare h _ _ tx (hw.2 b (hinit b hm)) hwl (hsep b hm)
    · simp only [MemBlock.view, readTx_elems_append spare h last.Transactions tx hwl]
  · simp only [MemChain.view]
    exact readTx_appendTx_other spare h _ _ tx hw.1 hwl (hs.2 last hlast)
  · rfl

/-- On a chain without shared cells, `AddTransaction` on memory does to the contents what
`Blockchain.AddTransaction` says. -/
theorem Mem.AddTransaction_view (spare : Nat) (h : Heap) (bc : MemChain) (tx : Transaction)
    (hw : bc.WellFormed h) (hs : bc.Separated) :
    Mem.result (Mem.AddTransaction spare h bc tx) = (bc.view h).AddTransaction tx :=
  Blockchain.eq_of_fields (Mem.AddTransaction_blocks spare h bc tx hw hs)
    (Mem.AddTransaction_pool spare h bc tx hw).1 rfl

/-- On a chain without shared cells, `AddTransactionToBlock` on memory does to the contents
what `Blockchain.AddTransactionToBlock` says, and panics when it does. -/
theorem Mem.AddTransactionToBlock_view (spare : Nat) (h : Heap) (bc : MemChain)
    (tx : Transaction) (hw : bc.WellFormed h) (hs : bc.Separated) :
    (Mem.AddTransactionToBlock spare h bc tx).map Mem.result =
      (bc.view h).AddTransactionToBlock tx := by
  have hlen : (bc.view h).Blocks.len = bc.Blocks.len := by
    cases hB : bc.Blocks <;> simp [MemChain.view, Slice.len, Slice.elems, hB]
  unfold Mem.AddTransactionToBlock Blockchain.AddTransactionToBlock
  rw [hlen]
  by_cases h0 : 1 ≤ bc.Blocks.len
  · obtain ⟨init, last, hb⟩ := exists_init_last h0
    have hl : bc.Blocks.len = init.length + 1 := by simp [Slice.len, hb]
    have hB : bc.Blocks = some (init ++ [last]) := by
      cases hB : bc.Blocks with
      | none => simp [Slice.elems, hB] at hb
      | some l => simp [Slice.elems, hB] at hb; rw [hb]
    have hu : (bc.view h).Blocks.updateAt init.length (Block.addTransaction tx) =
        some (init.map (MemBlock.view h) ++ [Block.addTransaction tx (last.view h)]) := by
      have := updateAt_last (Block.addTransaction tx) (init.map (MemBlock.view h)) (last.view h)
      simp only [List.length_map] at this
      simp [MemChain.view, hB, Slice.updateAt, this]
    have key := Mem.appendToBlock_last spare h bc tx init last hb hw hs
    by_cases h1 : bc.Blocks.len > 1
    · rw [if_pos h1, if_pos h1, show bc.Blocks.len - 1 = init.length by omega]
      simp only [Outcome.map, key, hu]
      rfl
    · have hz : init.length = 0 := by omega
      rw [if_neg h1, if_neg h1, if_pos (by omega), if_pos (by omega)]
      rw [hz] at key hu
      simp only [Outcome.map, key, hu]
      rfl
  · rw [if_neg (by omega), if_neg (by omega), if_neg (by omega), if_neg (by omega)]
    rfl

end blockchain
